import Mathlib

/-
Verification of the indexed binary min-heap in
src/data_structures/heap/min_heap.py.

Model. A Node object of the source has an identity (it is hashed by
identity in the dictionary idx_of_element) and a mutable integer field
val.  We represent identities by natural numbers (Ident) and the
mutable val fields of all nodes by one function vals : Ident -> Int,
which only decrease_key ever updates.  The heap state consists of
- heap : the Python list self.heap, a list of node identities,
- idx_of_element : the Python dict self.idx_of_element, an association
  list with distinct keys (first-match lookup, in-place overwrite,
  deletion, exactly like a dict),
- vals : the current val field of every node.

Python failures are modelled by Except PyErr: list indexing out of
range raises indexError, a dict read or del of a missing key raises
keyError, a failed assert raises assertionError.  Each fallible
operation has a faithful Except-valued version (suffix E) performing
exactly the checks Python performs in Python's evaluation order, and a
total shadow version used for invariant reasoning; bridging lemmas
show the two agree (the E version succeeds) on well-formed states.

while-loops are modelled by structural recursion on an explicit bound
(the fuel argument); the wrapper passes a bound that is proved
sufficient, so the bounded recursion never cuts a run short.
-/

abbrev Ident := Nat

/-- Python exceptions that the heap code can raise. -/
inductive PyErr where
  | indexError : PyErr
  | keyError : PyErr
  | assertionError : PyErr
deriving DecidableEq, Repr

/-- State of a MinHeap object (fields self.heap and self.idx_of_element),
together with the mutable val field of every Node (field vals). -/
structure MinHeap where
  heap : List Ident
  idx_of_element : List (Ident × Nat)
  vals : Ident → Int

/-- First-match lookup in an association list: Python d.get(k) / d[k]. -/
def dictGet? (d : List (Ident × Nat)) (k : Ident) : Option Nat :=
  match d with
  | [] => none
  | (k', v) :: rest => if k' = k then some v else dictGet? rest k

/-- Python d[k] = v : overwrite the binding of k if present, else append. -/
def dictSet (d : List (Ident × Nat)) (k : Ident) (v : Nat) : List (Ident × Nat) :=
  match d with
  | [] => [(k, v)]
  | (k', v') :: rest => if k' = k then (k, v) :: rest else (k', v') :: dictSet rest k v

/-- Python del d[k] (the key-present check is done by the caller). -/
def dictDel (d : List (Ident × Nat)) (k : Ident) : List (Ident × Nat) :=
  match d with
  | [] => []
  | (k', v') :: rest => if k' = k then rest else (k', v') :: dictDel rest k

/-- get_parent_idx of the source: (idx - 1) // 2 with Python floor division. -/
def MinHeap.get_parent_idx (idx : Int) : Int := (idx - 1).fdiv 2

/-- get_left_child_idx of the source: idx * 2 + 1. -/
def MinHeap.get_left_child_idx (idx : Nat) : Nat := idx * 2 + 1

/-- get_right_child_idx of the source: idx * 2 + 2. -/
def MinHeap.get_right_child_idx (idx : Nat) : Nat := idx * 2 + 2

/-- parent(i) = (i-1)/2 on natural subtraction; for i >= 1 this agrees with
get_parent_idx (used to state the heap-order property for non-root slots). -/
def parentIdx (i : Nat) : Nat := (i - 1) / 2

/-- The priority stored at slot i of the array: the val field of the node
reference self.heap[i] (the default is never reached at in-range slots). -/
def MinHeap.heapVal (s : MinHeap) (i : Nat) : Int := s.vals (s.heap.getD i 0)

/-- The simultaneous swap of the source (array positions i and j, and the two
dictionary entries of the swapped nodes), as performed by sift_down, sift_up
and remove:
  array[i], array[j] = array[j], array[i]
  d[array[i]], d[array[j]] = d[array[j]], d[array[i]]
After the array swap, array[i] holds b (the old array[j]) and array[j] holds
a, so the dict line writes d[b] := old d[a] first, then d[a] := old d[b]. -/
def MinHeap.swapAt (s : MinHeap) (i j : Nat) : MinHeap :=
  let a := s.heap.getD i 0
  let b := s.heap.getD j 0
  { heap := (s.heap.set i b).set j a
    idx_of_element :=
      dictSet (dictSet s.idx_of_element b ((dictGet? s.idx_of_element a).getD 0))
        a ((dictGet? s.idx_of_element b).getD 0)
    vals := s.vals }

/-- Checked version of swapAt: Python raises IndexError if a list index is
out of range (the array reads happen first) and KeyError if a swapped node is
missing from the dictionary. -/
def MinHeap.swapAtE (s : MinHeap) (i j : Nat) : Except PyErr MinHeap :=
  if i < s.heap.length ∧ j < s.heap.length then
    let a := s.heap.getD i 0
    let b := s.heap.getD j 0
    if (dictGet? s.idx_of_element a).isSome ∧ (dictGet? s.idx_of_element b).isSome then
      Except.ok (s.swapAt i j)
    else Except.error PyErr.keyError
  else Except.error PyErr.indexError

/-- The body of sift_down's while-loop, recursing on fuel.  At each round:
  l, r := children of idx; smallest := idx;
  if l < len(array) and array[l] < array[idx]: smallest := l
  if r < len(array) and array[r] < array[smallest]: smallest := r
  if smallest != idx: swap and continue from smallest, else stop.
Node comparison is by the val field (Node.__lt__). -/
def MinHeap.sift_downF : Nat → MinHeap → Nat → MinHeap
  | 0, s, _ => s
  | fuel + 1, s, idx =>
    let n := s.heap.length
    let l := get_left_child_idx idx
    let r := get_right_child_idx idx
    let smallest := if l < n ∧ s.heapVal l < s.heapVal idx then l else idx
    let smallest := if r < n ∧ s.heapVal r < s.heapVal smallest then r else smallest
    if smallest ≠ idx then sift_downF fuel (s.swapAt idx smallest) smallest else s

/-- sift_down of the source; the loop runs at most length-many rounds, so the
bound length + 1 never cuts it short. -/
def MinHeap.sift_down (s : MinHeap) (idx : Nat) : MinHeap :=
  sift_downF (s.heap.length + 1) s idx

/-- Checked sift_down.  The child comparisons are guarded by l < len and
r < len exactly as in the source (Python's short-circuit and), so the only
possible failure inside the loop is the dictionary update of a swap. -/
def MinHeap.sift_downEF : Nat → MinHeap → Nat → Except PyErr MinHeap
  | 0, s, _ => Except.ok s
  | fuel + 1, s, idx =>
    let n := s.heap.length
    let l := get_left_child_idx idx
    let r := get_right_child_idx idx
    let smallest := if l < n ∧ s.heapVal l < s.heapVal idx then l else idx
    let smallest := if r < n ∧ s.heapVal r < s.heapVal smallest then r else smallest
    if smallest ≠ idx then
      match s.swapAtE idx smallest with
      | Except.error e => Except.error e
      | Except.ok s' => sift_downEF fuel s' smallest
    else Except.ok s

/-- Checked sift_down with a sufficient bound. -/
def MinHeap.sift_downE (s : MinHeap) (idx : Nat) : Except PyErr MinHeap :=
  sift_downEF (s.heap.length + 1) s idx

/-- The body of sift_up's while-loop:
  p := get_parent_idx idx
  while p >= 0 and self.heap[p] > self.heap[idx]: swap(p, idx); idx := p.
self.heap[p] > self.heap[idx] is Node comparison, i.e. val idx < val p. -/
def MinHeap.sift_upF : Nat → MinHeap → Nat → MinHeap
  | 0, s, _ => s
  | fuel + 1, s, idx =>
    let p := get_parent_idx idx
    if 0 ≤ p ∧ s.heapVal idx < s.heapVal p.toNat then
      sift_upF fuel (s.swapAt p.toNat idx) p.toNat
    else s

/-- sift_up of the source; the loop index strictly decreases, so idx + 1
rounds always suffice. -/
def MinHeap.sift_up (s : MinHeap) (idx : Nat) : MinHeap :=
  sift_upF (idx + 1) s idx

/-- Checked sift_up: when p >= 0, Python reads self.heap[p] and
self.heap[idx] (IndexError when out of range) before comparing. -/
def MinHeap.sift_upEF : Nat → MinHeap → Nat → Except PyErr MinHeap
  | 0, s, _ => Except.ok s
  | fuel + 1, s, idx =>
    let p := get_parent_idx idx
    if 0 ≤ p then
      if p.toNat < s.heap.length ∧ idx < s.heap.length then
        if s.heapVal idx < s.heapVal p.toNat then
          match s.swapAtE p.toNat idx with
          | Except.error e => Except.error e
          | Except.ok s' => sift_upEF fuel s' p.toNat
        else Except.ok s
      else Except.error PyErr.indexError
    else Except.ok s

/-- Checked sift_up with a sufficient bound. -/
def MinHeap.sift_upE (s : MinHeap) (idx : Nat) : Except PyErr MinHeap :=
  sift_upEF (idx + 1) s idx

/-- peek of the source: return self.heap[0]; IndexError on an empty list. -/
def MinHeap.peek (s : MinHeap) : Except PyErr Ident :=
  match s.heap with
  | [] => Except.error PyErr.indexError
  | x :: _ => Except.ok x

/-- is_empty of the source: True if len(self.heap) == 0 else False. -/
def MinHeap.is_empty (s : MinHeap) : Bool :=
  if s.heap.length = 0 then true else false

/-- remove of the source, total shadow (used on nonempty well-formed states):
swap slots 0 and -1 (array and dict together), pop the last element x,
delete x from the dict, sift_down from the root, return x. -/
def MinHeap.remove (s : MinHeap) : Ident × MinHeap :=
  let s1 := s.swapAt 0 (s.heap.length - 1)
  let x := s1.heap.getD (s1.heap.length - 1) 0
  let s2 : MinHeap := ⟨s1.heap.dropLast, dictDel s1.idx_of_element x, s1.vals⟩
  (x, s2.sift_down 0)

/-- remove of the source with Python's failures: the initial swap raises
IndexError on an empty list; the dict reads of the swap and the del raise
KeyError on a missing node. -/
def MinHeap.removeE (s : MinHeap) : Except PyErr (Ident × MinHeap) :=
  if s.heap.length = 0 then Except.error PyErr.indexError
  else
    match s.swapAtE 0 (s.heap.length - 1) with
    | Except.error e => Except.error e
    | Except.ok s1 =>
      let x := s1.heap.getD (s1.heap.length - 1) 0
      if (dictGet? s1.idx_of_element x).isSome then
        let s2 : MinHeap := ⟨s1.heap.dropLast, dictDel s1.idx_of_element x, s1.vals⟩
        match s2.sift_downE 0 with
        | Except.error e => Except.error e
        | Except.ok s3 => Except.ok (x, s3)
      else Except.error PyErr.keyError

/-- insert of the source, total shadow.  The caller constructs the node
(identity value, priority v) and passes it in; the heap appends it, records
its index len(self.heap) - 1, and sifts it up. -/
def MinHeap.insert (s : MinHeap) (value : Ident) (v : Int) : MinHeap :=
  let s1 : MinHeap :=
    ⟨s.heap ++ [value], dictSet s.idx_of_element value (s.heap.length + 1 - 1),
      Function.update s.vals value v⟩
  s1.sift_up (s1.heap.length - 1)

/-- insert with Python's failures (only the final sift_up can fail, and only
on a malformed state). -/
def MinHeap.insertE (s : MinHeap) (value : Ident) (v : Int) : Except PyErr MinHeap :=
  let s1 : MinHeap :=
    ⟨s.heap ++ [value], dictSet s.idx_of_element value (s.heap.length + 1 - 1),
      Function.update s.vals value v⟩
  s1.sift_upE (s1.heap.length - 1)

/-- decrease_key of the source, in Python's evaluation order:
  assert self.heap[self.idx_of_element[key]].val > newValue
(dict lookup: KeyError; list index: IndexError; failed assert:
AssertionError), then key.val = newValue, then
sift_up(self.idx_of_element[key]) with a second dict lookup. -/
def MinHeap.decrease_key (s : MinHeap) (key : Ident) (newValue : Int) :
    Except PyErr MinHeap :=
  match dictGet? s.idx_of_element key with
  | none => Except.error PyErr.keyError
  | some i =>
    if i < s.heap.length then
      if newValue < s.heapVal i then
        let s1 : MinHeap := ⟨s.heap, s.idx_of_element, Function.update s.vals key newValue⟩
        match dictGet? s1.idx_of_element key with
        | none => Except.error PyErr.keyError
        | some j => s1.sift_upE j
      else Except.error PyErr.assertionError
    else Except.error PyErr.indexError

/-- The dictionary population loop of build_heap:
  for idx, i in enumerate(array): self.idx_of_element[i] = idx. -/
def buildDictFrom : List Ident → Nat → List (Ident × Nat) → List (Ident × Nat)
  | [], _, d => d
  | a :: rest, k, d => buildDictFrom rest (k + 1) (dictSet d a k)

/-- The heapify loop of build_heap: for i in range(startFrom, -1, -1):
sift_down(i); this runs i = startFrom, ..., 1, 0. -/
def MinHeap.build_heapAux (s : MinHeap) : Nat → MinHeap
  | 0 => s.sift_down 0
  | i + 1 => ((s.sift_down (i + 1)).build_heapAux i)

/-- build_heap of the source (together with __init__): populate the index
from the initial ordering, then sift_down from parent(last index) down to 0.
For len(array) <= 1, startFrom is negative and the range is empty. -/
def MinHeap.build_heap (array : List Ident) (vals : Ident → Int) : MinHeap :=
  let lastIdx : Int := (array.length : Int) - 1
  let startFrom : Int := get_parent_idx lastIdx
  let s0 : MinHeap := ⟨array, buildDictFrom array 0 [], vals⟩
  if 0 ≤ startFrom then s0.build_heapAux startFrom.toNat else s0

/-- The heapify loop with Python's failures propagated. -/
def MinHeap.build_heapAuxE (s : MinHeap) : Nat → Except PyErr MinHeap
  | 0 => s.sift_downE 0
  | i + 1 =>
    match s.sift_downE (i + 1) with
    | Except.error e => Except.error e
    | Except.ok s' => s'.build_heapAuxE i

/-- build_heap with Python's failures propagated. -/
def MinHeap.build_heapE (array : List Ident) (vals : Ident → Int) :
    Except PyErr MinHeap :=
  let lastIdx : Int := (array.length : Int) - 1
  let startFrom : Int := get_parent_idx lastIdx
  let s0 : MinHeap := ⟨array, buildDictFrom array 0 [], vals⟩
  if 0 ≤ startFrom then s0.build_heapAuxE startFrom.toNat else Except.ok s0

/-- The experiment of the sorted-extraction property: call remove repeatedly
until it fails (on an empty heap, or with an error), collecting the returned
elements; the final state is returned as well. -/
def MinHeap.drainAllF : Nat → MinHeap → List Ident × MinHeap
  | 0, s => ([], s)
  | fuel + 1, s =>
    match s.removeE with
    | Except.error _ => ([], s)
    | Except.ok (x, s') =>
      let r := drainAllF fuel s'
      (x :: r.1, r.2)

/-- Repeated remove with a sufficient bound (each successful remove shrinks
the array by one). -/
def MinHeap.drainAll (s : MinHeap) : List Ident × MinHeap :=
  drainAllF (s.heap.length + 1) s
/-! ### Dictionary lemmas -/

theorem dictGet?_nil (k : Ident) : dictGet? [] k = none := rfl

theorem dictGet?_cons_self (k : Ident) (v : Nat) (rest : List (Ident × Nat)) :
    dictGet? ((k, v) :: rest) k = some v := by
  simp [dictGet?]

theorem dictGet?_cons_ne (k' k : Ident) (v' : Nat) (rest : List (Ident × Nat))
    (h : k' ≠ k) : dictGet? ((k', v') :: rest) k = dictGet? rest k := by
  simp [dictGet?, h]

theorem dictSet_nil (k : Ident) (v : Nat) : dictSet [] k v = [(k, v)] := rfl

theorem dictSet_cons_self (k : Ident) (v v' : Nat) (rest : List (Ident × Nat)) :
    dictSet ((k, v') :: rest) k v = (k, v) :: rest := by
  simp [dictSet]

theorem dictSet_cons_ne (k' k : Ident) (v v' : Nat) (rest : List (Ident × Nat))
    (h : k' ≠ k) : dictSet ((k', v') :: rest) k v = (k', v') :: dictSet rest k v := by
  simp [dictSet, h]

theorem dictDel_cons_self (k : Ident) (v : Nat) (rest : List (Ident × Nat)) :
    dictDel ((k, v) :: rest) k = rest := by
  simp [dictDel]

theorem dictDel_cons_ne (k' k : Ident) (v' : Nat) (rest : List (Ident × Nat))
    (h : k' ≠ k) : dictDel ((k', v') :: rest) k = (k', v') :: dictDel rest k := by
  simp [dictDel, h]

theorem dictGet?_dictSet_self (d : List (Ident × Nat)) (k : Ident) (v : Nat) :
    dictGet? (dictSet d k v) k = some v := by
  induction d with
  | nil => rw [dictSet_nil, dictGet?_cons_self]
  | cons p rest ih =>
    obtain ⟨k', v'⟩ := p
    by_cases h : k' = k
    · subst h
      rw [dictSet_cons_self, dictGet?_cons_self]
    · rw [dictSet_cons_ne _ _ _ _ _ h, dictGet?_cons_ne _ _ _ _ h, ih]

theorem dictGet?_dictSet_ne (d : List (Ident × Nat)) (k : Ident) (v : Nat)
    (x : Ident) (hx : x ≠ k) : dictGet? (dictSet d k v) x = dictGet? d x := by
  have hk : k ≠ x := fun h => hx h.symm
  induction d with
  | nil => rw [dictSet_nil, dictGet?_cons_ne _ _ _ _ hk]
  | cons p rest ih =>
    obtain ⟨k', v'⟩ := p
    by_cases h : k' = k
    · subst h
      rw [dictSet_cons_self, dictGet?_cons_ne _ _ _ _ hk, dictGet?_cons_ne _ _ _ _ hk]
    · rw [dictSet_cons_ne _ _ _ _ _ h]
      by_cases h2 : k' = x
      · subst h2
        rw [dictGet?_cons_self, dictGet?_cons_self]
      · rw [dictGet?_cons_ne _ _ _ _ h2, dictGet?_cons_ne _ _ _ _ h2, ih]

theorem mem_keys_dictSet (d : List (Ident × Nat)) (k : Ident) (v : Nat) (x : Ident) :
    x ∈ (dictSet d k v).map Prod.fst ↔ x = k ∨ x ∈ d.map Prod.fst := by
  induction d with
  | nil =>
    rw [dictSet_nil]
    simp
  | cons p rest ih =>
    obtain ⟨k', v'⟩ := p
    by_cases h : k' = k
    · subst h
      rw [dictSet_cons_self]
      simp only [List.map_cons, List.mem_cons]
      tauto
    · rw [dictSet_cons_ne _ _ _ _ _ h]
      simp only [List.map_cons, List.mem_cons, ih]
      tauto

theorem keysNodup_dictSet (d : List (Ident × Nat)) (k : Ident) (v : Nat)
    (h : (d.map Prod.fst).Nodup) : ((dictSet d k v).map Prod.fst).Nodup := by
  induction d with
  | nil =>
    rw [dictSet_nil]
    simp
  | cons p rest ih =>
    obtain ⟨k', v'⟩ := p
    simp only [List.map_cons, List.nodup_cons] at h
    by_cases hk : k' = k
    · subst hk
      rw [dictSet_cons_self]
      simp only [List.map_cons, List.nodup_cons]
      exact h
    · rw [dictSet_cons_ne _ _ _ _ _ hk]
      simp only [List.map_cons, List.nodup_cons]
      refine ⟨?_, ih h.2⟩
      rw [mem_keys_dictSet]
      rintro (rfl | hm)
      · exact hk rfl
      · exact h.1 hm

theorem mem_of_dictGet?_eq_some (d : List (Ident × Nat)) (k : Ident) (v : Nat)
    (h : dictGet? d k = some v) : (k, v) ∈ d := by
  induction d with
  | nil => simp [dictGet?] at h
  | cons p rest ih =>
    obtain ⟨k', v'⟩ := p
    by_cases hk : k' = k
    · subst hk
      rw [dictGet?_cons_self, Option.some.injEq] at h
      simp [h]
    · rw [dictGet?_cons_ne _ _ _ _ hk] at h
      simp [ih h]

theorem dictGet?_dictDel_self (d : List (Ident × Nat)) (k : Ident)
    (h : (d.map Prod.fst).Nodup) : dictGet? (dictDel d k) k = none := by
  induction d with
  | nil => simp [dictDel, dictGet?]
  | cons p rest ih =>
    obtain ⟨k', v'⟩ := p
    simp only [List.map_cons, List.nodup_cons] at h
    by_cases hk : k' = k
    · subst hk
      rw [dictDel_cons_self]
      cases hg : dictGet? rest k' with
      | none => rfl
      | some w =>
        exfalso
        exact h.1 (List.mem_map.mpr ⟨(k', w), mem_of_dictGet?_eq_some rest k' w hg, rfl⟩)
    · rw [dictDel_cons_ne _ _ _ _ hk, dictGet?_cons_ne _ _ _ _ hk]
      exact ih h.2

theorem dictGet?_dictDel_ne (d : List (Ident × Nat)) (k x : Ident) (hx : x ≠ k) :
    dictGet? (dictDel d k) x = dictGet? d x := by
  induction d with
  | nil => simp [dictDel]
  | cons p rest ih =>
    obtain ⟨k', v'⟩ := p
    by_cases hk : k' = k
    · subst hk
      have h2 : k' ≠ x := fun h => hx h.symm
      rw [dictDel_cons_self, dictGet?_cons_ne _ _ _ _ h2]
    · rw [dictDel_cons_ne _ _ _ _ hk]
      by_cases h2 : k' = x
      · subst h2
        rw [dictGet?_cons_self, dictGet?_cons_self]
      · rw [dictGet?_cons_ne _ _ _ _ h2, dictGet?_cons_ne _ _ _ _ h2, ih]

theorem keys_dictDel_subset (d : List (Ident × Nat)) (k x : Ident)
    (h : x ∈ (dictDel d k).map Prod.fst) : x ∈ d.map Prod.fst := by
  induction d with
  | nil => simp [dictDel] at h
  | cons p rest ih =>
    obtain ⟨k', v'⟩ := p
    by_cases hk : k' = k
    · subst hk
      rw [dictDel_cons_self] at h
      simp only [List.map_cons, List.mem_cons]
      exact Or.inr h
    · rw [dictDel_cons_ne _ _ _ _ hk] at h
      simp only [List.map_cons, List.mem_cons] at h ⊢
      tauto

theorem keysNodup_dictDel (d : List (Ident × Nat)) (k : Ident)
    (h : (d.map Prod.fst).Nodup) : ((dictDel d k).map Prod.fst).Nodup := by
  induction d with
  | nil => simp [dictDel]
  | cons p rest ih =>
    obtain ⟨k', v'⟩ := p
    simp only [List.map_cons, List.nodup_cons] at h
    by_cases hk : k' = k
    · subst hk
      rw [dictDel_cons_self]
      exact h.2
    · rw [dictDel_cons_ne _ _ _ _ hk]
      simp only [List.map_cons, List.nodup_cons]
      exact ⟨fun hm => h.1 (keys_dictDel_subset rest k k' hm), ih h.2⟩

theorem dictGet?_eq_some_of_mem (d : List (Ident × Nat)) (k : Ident) (v : Nat)
    (hnd : (d.map Prod.fst).Nodup) (hm : (k, v) ∈ d) : dictGet? d k = some v := by
  induction d with
  | nil => simp at hm
  | cons p rest ih =>
    obtain ⟨k', v'⟩ := p
    simp only [List.map_cons, List.nodup_cons] at hnd
    rcases List.mem_cons.mp hm with h | h
    · rw [Prod.mk.injEq] at h
      obtain ⟨h1, h2⟩ := h
      subst h1
      subst h2
      rw [dictGet?_cons_self]
    · have hk : k' ≠ k := by
        rintro rfl
        exact hnd.1 (List.mem_map.mpr ⟨(k', v), h, rfl⟩)
      rw [dictGet?_cons_ne _ _ _ _ hk]
      exact ih hnd.2 h

theorem dictSet_self (d : List (Ident × Nat)) (k : Ident) (v : Nat)
    (h : dictGet? d k = some v) : dictSet d k v = d := by
  induction d with
  | nil => simp [dictGet?] at h
  | cons p rest ih =>
    obtain ⟨k', v'⟩ := p
    by_cases hk : k' = k
    · subst hk
      rw [dictGet?_cons_self, Option.some.injEq] at h
      rw [dictSet_cons_self, h]
    · rw [dictGet?_cons_ne _ _ _ _ hk] at h
      rw [dictSet_cons_ne _ _ _ _ _ hk, ih h]

theorem dictGet?_isSome_dictSet (d : List (Ident × Nat)) (k : Ident) (v : Nat)
    (x : Ident) (h : (dictGet? d x).isSome) : (dictGet? (dictSet d k v) x).isSome := by
  by_cases hx : x = k
  · subst hx
    simp [dictGet?_dictSet_self]
  · rwa [dictGet?_dictSet_ne d k v x hx]

/-! ### List position helpers -/

theorem hp_getD_mem (l : List Ident) (i : Nat) (h : i < l.length) : l.getD i 0 ∈ l := by
  rw [List.getD_eq_getElem l 0 h]
  exact List.getElem_mem h

theorem hp_getD_set_self (l : List Ident) (i : Nat) (a : Ident) (h : i < l.length) :
    (l.set i a).getD i 0 = a := by
  rw [List.getD_eq_getElem _ 0 (by simpa using h)]
  exact List.getElem_set_self (by simpa using h)

theorem hp_getD_set_ne (l : List Ident) (i j : Nat) (a : Ident) (hij : i ≠ j) :
    (l.set i a).getD j 0 = l.getD j 0 := by
  by_cases hj : j < l.length
  · rw [List.getD_eq_getElem _ 0 (by simpa using hj), List.getD_eq_getElem _ 0 hj]
    exact List.getElem_set_ne hij _
  · have hj' : l.length ≤ j := Nat.le_of_not_lt hj
    rw [List.getD_eq_default _ 0 (by simpa using hj'), List.getD_eq_default _ 0 hj']

theorem hp_set_getD_self (l : List Ident) (i : Nat) (h : i < l.length) :
    l.set i (l.getD i 0) = l := by
  induction l generalizing i with
  | nil => simp at h
  | cons y t ih =>
    cases i with
    | zero => simp
    | succ j =>
      simp only [List.getD_cons_succ, List.set_cons_succ, List.cons.injEq, true_and]
      exact ih j (by simpa using h)

theorem hp_cons_set_perm (l : List Ident) (j : Nat) (x : Ident) (h : j < l.length) :
    (l.getD j 0 :: l.set j x).Perm (x :: l) := by
  induction l generalizing j with
  | nil => simp at h
  | cons y t ih =>
    cases j with
    | zero => simpa using List.Perm.swap x y t
    | succ j =>
      simp only [List.getD_cons_succ, List.set_cons_succ]
      exact ((List.Perm.swap y (t.getD j 0) (t.set j x)).trans
        ((ih j (by simpa using h)).cons y)).trans (List.Perm.swap x y t)

theorem hp_set_swap_perm (l : List Ident) (i j : Nat) (hi : i < l.length)
    (hj : j < l.length) : ((l.set i (l.getD j 0)).set j (l.getD i 0)).Perm l := by
  by_cases hij : i = j
  · subst hij
    rw [List.set_set, hp_set_getD_self l i hi]
  · have h1 : (l.set i (l.getD j 0)).getD j 0 = l.getD j 0 :=
      hp_getD_set_ne l i j _ hij
    have h2 : ((l.set i (l.getD j 0)).getD j 0 :: (l.set i (l.getD j 0)).set j
        (l.getD i 0)).Perm (l.getD i 0 :: l.set i (l.getD j 0)) :=
      hp_cons_set_perm (l.set i (l.getD j 0)) j (l.getD i 0) (by simpa using hj)
    have h3 : (l.getD i 0 :: l.set i (l.getD j 0)).Perm (l.getD j 0 :: l) :=
      hp_cons_set_perm l i (l.getD j 0) hi
    rw [h1] at h2
    exact (h2.trans h3).cons_inv

theorem hp_nodup_getD_inj (l : List Ident) (i j : Nat) (hnd : l.Nodup)
    (hi : i < l.length) (hj : j < l.length) (h : l.getD i 0 = l.getD j 0) : i = j := by
  rw [List.getD_eq_getElem l 0 hi, List.getD_eq_getElem l 0 hj] at h
  exact (List.Nodup.getElem_inj_iff hnd).mp h

/-! ### swapAt lemmas -/

theorem swapAt_vals (s : MinHeap) (i j : Nat) : (s.swapAt i j).vals = s.vals := rfl

theorem swapAt_heap (s : MinHeap) (i j : Nat) :
    (s.swapAt i j).heap = (s.heap.set i (s.heap.getD j 0)).set j (s.heap.getD i 0) := rfl

theorem swapAt_perm (s : MinHeap) (i j : Nat) (hi : i < s.heap.length)
    (hj : j < s.heap.length) : (s.swapAt i j).heap.Perm s.heap :=
  hp_set_swap_perm s.heap i j hi hj

theorem swapAt_length (s : MinHeap) (i j : Nat) :
    (s.swapAt i j).heap.length = s.heap.length := by
  rw [swapAt_heap]
  simp

theorem swapAt_getD_fst (s : MinHeap) (i j : Nat) (hi : i < s.heap.length) :
    (s.swapAt i j).heap.getD i 0 = s.heap.getD j 0 := by
  rw [swapAt_heap]
  by_cases hij : i = j
  · subst hij
    exact hp_getD_set_self _ i _ (by simpa using hi)
  · rw [hp_getD_set_ne _ j i _ (fun h => hij h.symm),
      hp_getD_set_self _ i _ hi]

theorem swapAt_getD_snd (s : MinHeap) (i j : Nat) (hj : j < s.heap.length) :
    (s.swapAt i j).heap.getD j 0 = s.heap.getD i 0 := by
  rw [swapAt_heap]
  exact hp_getD_set_self _ j _ (by simpa using hj)

theorem swapAt_getD_other (s : MinHeap) (i j k : Nat) (hki : k ≠ i) (hkj : k ≠ j) :
    (s.swapAt i j).heap.getD k 0 = s.heap.getD k 0 := by
  rw [swapAt_heap, hp_getD_set_ne _ j k _ (fun h => hkj h.symm),
    hp_getD_set_ne _ i k _ (fun h => hki h.symm)]

theorem swapAt_heapVal_fst (s : MinHeap) (i j : Nat) (hi : i < s.heap.length) :
    (s.swapAt i j).heapVal i = s.heapVal j := by
  unfold MinHeap.heapVal
  rw [swapAt_vals, swapAt_getD_fst s i j hi]

theorem swapAt_heapVal_snd (s : MinHeap) (i j : Nat) (hj : j < s.heap.length) :
    (s.swapAt i j).heapVal j = s.heapVal i := by
  unfold MinHeap.heapVal
  rw [swapAt_vals, swapAt_getD_snd s i j hj]

theorem swapAt_heapVal_other (s : MinHeap) (i j k : Nat) (hki : k ≠ i) (hkj : k ≠ j) :
    (s.swapAt i j).heapVal k = s.heapVal k := by
  unfold MinHeap.heapVal
  rw [swapAt_vals, swapAt_getD_other s i j k hki hkj]

/-! ### The heap invariants -/

/-- Every node referenced by the array has an entry in the dictionary (so the
dictionary reads performed by the source never raise KeyError). -/
def MinHeap.KeysPresent (s : MinHeap) : Prop :=
  ∀ e ∈ s.heap, (dictGet? s.idx_of_element e).isSome

/-- Array/dictionary consistency: the array holds pairwise distinct node
references, the dictionary has pairwise distinct keys, every dictionary entry
(e, i) points at an in-range slot with array[i] = e, and every array element
has an entry. -/
def MinHeap.IndexInv (s : MinHeap) : Prop :=
  s.heap.Nodup ∧ (s.idx_of_element.map Prod.fst).Nodup ∧
    (∀ p ∈ s.idx_of_element, p.2 < s.heap.length ∧ s.heap.getD p.2 0 = p.1) ∧
    s.KeysPresent

/-- The heap-order property: every non-root slot is at least its parent. -/
def MinHeap.HeapOrd (s : MinHeap) : Prop :=
  ∀ i, 0 < i → i < s.heap.length → s.heapVal (parentIdx i) ≤ s.heapVal i

theorem MinHeap.IndexInv.heapNodup {s : MinHeap} (h : s.IndexInv) : s.heap.Nodup := h.1

theorem MinHeap.IndexInv.keysNodup {s : MinHeap} (h : s.IndexInv) :
    (s.idx_of_element.map Prod.fst).Nodup := h.2.1

theorem MinHeap.IndexInv.entry_spec {s : MinHeap} (h : s.IndexInv) {e : Ident} {i : Nat}
    (hl : dictGet? s.idx_of_element e = some i) :
    i < s.heap.length ∧ s.heap.getD i 0 = e :=
  h.2.2.1 (e, i) (mem_of_dictGet?_eq_some _ e i hl)

theorem MinHeap.IndexInv.keysPresent {s : MinHeap} (h : s.IndexInv) : s.KeysPresent := h.2.2.2

/-- On a consistent state, the dictionary maps the node at slot i to i. -/
theorem MinHeap.IndexInv.lookup_getD {s : MinHeap} (h : s.IndexInv) {i : Nat}
    (hi : i < s.heap.length) :
    dictGet? s.idx_of_element (s.heap.getD i 0) = some i := by
  have hmem : s.heap.getD i 0 ∈ s.heap := hp_getD_mem s.heap i hi
  have hsome := h.keysPresent _ hmem
  cases hl : dictGet? s.idx_of_element (s.heap.getD i 0) with
  | none => rw [hl] at hsome; simp at hsome
  | some j =>
    obtain ⟨hj, hgd⟩ := h.entry_spec hl
    rw [hp_nodup_getD_inj s.heap j i h.heapNodup hj hi hgd]

theorem mem_dictSet_iff (d : List (Ident × Nat)) (k : Ident) (v : Nat)
    (x : Ident) (w : Nat) (hnd : (d.map Prod.fst).Nodup) :
    (x, w) ∈ dictSet d k v ↔ (x = k ∧ w = v) ∨ (x ≠ k ∧ (x, w) ∈ d) := by
  induction d with
  | nil =>
    rw [dictSet_nil]
    simp only [List.mem_singleton, Prod.mk.injEq, List.not_mem_nil, and_false, or_false]
  | cons p rest ih =>
    obtain ⟨k', v'⟩ := p
    simp only [List.map_cons, List.nodup_cons] at hnd
    by_cases hk : k' = k
    · subst hk
      rw [dictSet_cons_self]
      simp only [List.mem_cons, Prod.mk.injEq]
      constructor
      · rintro (⟨rfl, rfl⟩ | hm)
        · exact Or.inl ⟨rfl, rfl⟩
        · have hx : x ≠ k' := by
            rintro rfl
            exact hnd.1 (List.mem_map.mpr ⟨(x, w), hm, rfl⟩)
          exact Or.inr ⟨hx, Or.inr hm⟩
      · rintro (⟨rfl, rfl⟩ | ⟨hx, ⟨rfl, rfl⟩ | hm⟩)
        · exact Or.inl ⟨rfl, rfl⟩
        · exact absurd rfl hx
        · exact Or.inr hm
    · rw [dictSet_cons_ne _ _ _ _ _ hk]
      simp only [List.mem_cons, Prod.mk.injEq, ih hnd.2]
      constructor
      · rintro (⟨rfl, rfl⟩ | ⟨rfl, rfl⟩ | ⟨hx, hm⟩)
        · exact Or.inr ⟨hk, Or.inl ⟨rfl, rfl⟩⟩
        · exact Or.inl ⟨rfl, rfl⟩
        · exact Or.inr ⟨hx, Or.inr hm⟩
      · rintro (⟨rfl, rfl⟩ | ⟨hx, ⟨rfl, rfl⟩ | hm⟩)
        · exact Or.inr (Or.inl ⟨rfl, rfl⟩)
        · exact Or.inl ⟨rfl, rfl⟩
        · exact Or.inr (Or.inr ⟨hx, hm⟩)

/-- Swapping a slot with itself is the identity on consistent states. -/
theorem swapAt_self (s : MinHeap) (i : Nat) (hi : i < s.heap.length)
    (hl : dictGet? s.idx_of_element (s.heap.getD i 0) = some i) :
    s.swapAt i i = s := by
  unfold MinHeap.swapAt
  have hd : dictSet s.idx_of_element (s.heap.getD i 0)
      ((dictGet? s.idx_of_element (s.heap.getD i 0)).getD 0) = s.idx_of_element := by
    rw [hl]
    exact dictSet_self _ _ _ hl
  simp only [hd, List.set_set, hp_set_getD_self s.heap i hi]

/-- The swap of two in-range slots preserves array/dictionary consistency. -/
theorem swapAt_indexInv (s : MinHeap) (i j : Nat) (h : s.IndexInv)
    (hi : i < s.heap.length) (hj : j < s.heap.length) : (s.swapAt i j).IndexInv := by
  by_cases hij : i = j
  · subst hij
    rw [swapAt_self s i hi (h.lookup_getD hi)]
    exact h
  · have hla : dictGet? s.idx_of_element (s.heap.getD i 0) = some i := h.lookup_getD hi
    have hlb : dictGet? s.idx_of_element (s.heap.getD j 0) = some j := h.lookup_getD hj
    have hab : s.heap.getD i 0 ≠ s.heap.getD j 0 := by
      intro he
      exact hij (hp_nodup_getD_inj s.heap i j h.heapNodup hi hj he)
    refine ⟨?_, ?_, ?_, ?_⟩
    · exact ((swapAt_perm s i j hi hj).symm).nodup h.heapNodup
    · exact keysNodup_dictSet _ _ _ (keysNodup_dictSet _ _ _ h.keysNodup)
    · intro p hp
      show p.2 < (s.swapAt i j).heap.length ∧ (s.swapAt i j).heap.getD p.2 0 = p.1
      obtain ⟨x, w⟩ := p
      unfold MinHeap.swapAt at hp
      simp only at hp
      rw [hla, hlb] at hp
      simp only [Option.getD_some] at hp
      rw [mem_dictSet_iff _ _ _ _ _ (keysNodup_dictSet _ _ _ h.keysNodup)] at hp
      rcases hp with ⟨hx1, hw1⟩ | ⟨hxa, hp⟩
      · -- the entry (array_old[i], j) written second
        rw [hx1, hw1, swapAt_length]
        exact ⟨hj, swapAt_getD_snd s i j hj⟩
      · rw [mem_dictSet_iff _ _ _ _ _ h.keysNodup] at hp
        rcases hp with ⟨hx2, hw2⟩ | ⟨hxb, hp⟩
        · -- the entry (array_old[j], i) written first
          rw [hx2, hw2, swapAt_length]
          exact ⟨hi, swapAt_getD_fst s i j hi⟩
        · -- an untouched entry
          obtain ⟨hw, hgd⟩ := h.2.2.1 (x, w) hp
          have hwi : w ≠ i := by
            rintro rfl
            exact hxa hgd.symm
          have hwj : w ≠ j := by
            rintro rfl
            exact hxb hgd.symm
          refine ⟨by rw [swapAt_length]; exact hw, ?_⟩
          rw [swapAt_getD_other s i j w hwi hwj]
          exact hgd
    · intro e he
      have he' : e ∈ s.heap := (swapAt_perm s i j hi hj).mem_iff.mp he
      exact dictGet?_isSome_dictSet _ _ _ _ (dictGet?_isSome_dictSet _ _ _ _
        (h.keysPresent e he'))

/-- The swap of two in-range slots keeps every referenced key present. -/
theorem swapAt_keysPresent (s : MinHeap) (i j : Nat) (h : s.KeysPresent)
    (hi : i < s.heap.length) (hj : j < s.heap.length) : (s.swapAt i j).KeysPresent := by
  intro e he
  have he' : e ∈ s.heap := (swapAt_perm s i j hi hj).mem_iff.mp he
  exact dictGet?_isSome_dictSet _ _ _ _ (dictGet?_isSome_dictSet _ _ _ _ (h e he'))

/-- On a state where both swapped nodes are indexed, the checked swap
succeeds and agrees with the total swap. -/
theorem swapAtE_eq (s : MinHeap) (i j : Nat) (hi : i < s.heap.length)
    (hj : j < s.heap.length) (h : s.KeysPresent) :
    s.swapAtE i j = Except.ok (s.swapAt i j) := by
  unfold MinHeap.swapAtE
  rw [if_pos ⟨hi, hj⟩, if_pos ⟨h _ (hp_getD_mem s.heap i hi), h _ (hp_getD_mem s.heap j hj)⟩]

/-- Conversely a successful checked swap is the total swap on in-range slots. -/
theorem swapAtE_ok (s : MinHeap) (i j : Nat) (t : MinHeap)
    (h : s.swapAtE i j = Except.ok t) :
    t = s.swapAt i j ∧ i < s.heap.length ∧ j < s.heap.length := by
  unfold MinHeap.swapAtE at h
  by_cases hb : i < s.heap.length ∧ j < s.heap.length
  · rw [if_pos hb] at h
    by_cases hk : (dictGet? s.idx_of_element (s.heap.getD i 0)).isSome ∧
        (dictGet? s.idx_of_element (s.heap.getD j 0)).isSome
    · rw [if_pos hk] at h
      exact ⟨(Except.ok.injEq .. ▸ h).symm, hb⟩
    · rw [if_neg hk] at h
      exact absurd h (by simp)
  · rw [if_neg hb] at h
    exact absurd h (by simp)

/-! ### sift_down: step characterization and preservation -/

/-- The index selected by one round of sift_down (the final value of the
variable smallest in the loop body). -/
def MinHeap.sdSmallest (s : MinHeap) (idx : Nat) : Nat :=
  let n := s.heap.length
  let l := get_left_child_idx idx
  let r := get_right_child_idx idx
  let smallest := if l < n ∧ s.heapVal l < s.heapVal idx then l else idx
  if r < n ∧ s.heapVal r < s.heapVal smallest then r else smallest

theorem sift_downF_zero (s : MinHeap) (idx : Nat) :
    MinHeap.sift_downF 0 s idx = s := rfl

theorem sift_downF_succ (fuel : Nat) (s : MinHeap) (idx : Nat) :
    MinHeap.sift_downF (fuel + 1) s idx =
      if s.sdSmallest idx ≠ idx then
        MinHeap.sift_downF fuel (s.swapAt idx (s.sdSmallest idx)) (s.sdSmallest idx)
      else s := rfl

theorem sift_downEF_zero (s : MinHeap) (idx : Nat) :
    MinHeap.sift_downEF 0 s idx = Except.ok s := rfl

theorem sift_downEF_succ (fuel : Nat) (s : MinHeap) (idx : Nat) :
    MinHeap.sift_downEF (fuel + 1) s idx =
      if s.sdSmallest idx ≠ idx then
        match s.swapAtE idx (s.sdSmallest idx) with
        | Except.error e => Except.error e
        | Except.ok s' => MinHeap.sift_downEF fuel s' (s.sdSmallest idx)
      else Except.ok s := rfl

/-- When a sift_down round decides to swap, the selected child is in range,
strictly below idx in priority, is one of the two children of idx, and is no
larger than either in-range child. -/
theorem sdSmallest_spec (s : MinHeap) (idx : Nat) (h : s.sdSmallest idx ≠ idx) :
    s.sdSmallest idx < s.heap.length ∧ idx < s.heap.length ∧
    (s.sdSmallest idx = MinHeap.get_left_child_idx idx ∨
      s.sdSmallest idx = MinHeap.get_right_child_idx idx) ∧
    s.heapVal (s.sdSmallest idx) < s.heapVal idx ∧
    (∀ c, (c = MinHeap.get_left_child_idx idx ∨ c = MinHeap.get_right_child_idx idx) →
      c < s.heap.length → s.heapVal (s.sdSmallest idx) ≤ s.heapVal c) := by
  have hlidx : idx < MinHeap.get_left_child_idx idx := by
    unfold MinHeap.get_left_child_idx
    omega
  have hridx : idx < MinHeap.get_right_child_idx idx := by
    unfold MinHeap.get_right_child_idx
    omega
  simp only [MinHeap.sdSmallest] at h ⊢
  by_cases h1 : MinHeap.get_left_child_idx idx < s.heap.length ∧
      s.heapVal (MinHeap.get_left_child_idx idx) < s.heapVal idx
  · rw [if_pos h1] at h ⊢
    by_cases h2 : MinHeap.get_right_child_idx idx < s.heap.length ∧
        s.heapVal (MinHeap.get_right_child_idx idx) <
          s.heapVal (MinHeap.get_left_child_idx idx)
    · rw [if_pos h2] at h ⊢
      refine ⟨h2.1, Nat.lt_trans hridx h2.1, Or.inr rfl,
        lt_trans h2.2 h1.2, ?_⟩
      rintro c (rfl | rfl)
      · intro _
        exact le_of_lt h2.2
      · intro _
        exact le_refl _
    · rw [if_neg h2] at h ⊢
      refine ⟨h1.1, Nat.lt_trans hlidx h1.1, Or.inl rfl, h1.2, ?_⟩
      rintro c (rfl | rfl)
      · intro _
        exact le_refl _
      · intro hc
        by_contra hlt
        exact h2 ⟨hc, lt_of_not_le hlt⟩
  · rw [if_neg h1] at h ⊢
    by_cases h2 : MinHeap.get_right_child_idx idx < s.heap.length ∧
        s.heapVal (MinHeap.get_right_child_idx idx) < s.heapVal idx
    · rw [if_pos h2] at h ⊢
      refine ⟨h2.1, Nat.lt_trans hridx h2.1, Or.inr rfl, h2.2, ?_⟩
      rintro c (rfl | rfl)
      · intro hc
        have hle : s.heapVal idx ≤ s.heapVal (MinHeap.get_left_child_idx idx) := by
          by_contra hlt
          exact h1 ⟨hc, lt_of_not_le hlt⟩
        exact le_trans (le_of_lt h2.2) hle
      · intro _
        exact le_refl _
    · rw [if_neg h2] at h
      exact absurd rfl h

theorem sift_downF_perm (fuel : Nat) : ∀ (s : MinHeap) (idx : Nat),
    (MinHeap.sift_downF fuel s idx).heap.Perm s.heap := by
  induction fuel with
  | zero => intro s idx; rw [sift_downF_zero]
  | succ fuel ih =>
    intro s idx
    rw [sift_downF_succ]
    by_cases hsm : s.sdSmallest idx ≠ idx
    · rw [if_pos hsm]
      obtain ⟨h1, h2, _, _, _⟩ := sdSmallest_spec s idx hsm
      exact (ih _ _).trans (swapAt_perm s idx _ h2 h1)
    · rw [if_neg hsm]

theorem sift_downF_vals (fuel : Nat) : ∀ (s : MinHeap) (idx : Nat),
    (MinHeap.sift_downF fuel s idx).vals = s.vals := by
  induction fuel with
  | zero => intro s idx; rw [sift_downF_zero]
  | succ fuel ih =>
    intro s idx
    rw [sift_downF_succ]
    by_cases hsm : s.sdSmallest idx ≠ idx
    · rw [if_pos hsm, ih, swapAt_vals]
    · rw [if_neg hsm]

theorem sift_downF_length (fuel : Nat) (s : MinHeap) (idx : Nat) :
    (MinHeap.sift_downF fuel s idx).heap.length = s.heap.length :=
  (sift_downF_perm fuel s idx).length_eq

theorem sift_downF_keysPresent (fuel : Nat) : ∀ (s : MinHeap) (idx : Nat),
    s.KeysPresent → (MinHeap.sift_downF fuel s idx).KeysPresent := by
  induction fuel with
  | zero => intro s idx h; rwa [sift_downF_zero]
  | succ fuel ih =>
    intro s idx h
    rw [sift_downF_succ]
    by_cases hsm : s.sdSmallest idx ≠ idx
    · rw [if_pos hsm]
      obtain ⟨h1, h2, _, _, _⟩ := sdSmallest_spec s idx hsm
      exact ih _ _ (swapAt_keysPresent s idx _ h h2 h1)
    · rwa [if_neg hsm]

theorem sift_downF_indexInv (fuel : Nat) : ∀ (s : MinHeap) (idx : Nat),
    s.IndexInv → (MinHeap.sift_downF fuel s idx).IndexInv := by
  induction fuel with
  | zero => intro s idx h; rwa [sift_downF_zero]
  | succ fuel ih =>
    intro s idx h
    rw [sift_downF_succ]
    by_cases hsm : s.sdSmallest idx ≠ idx
    · rw [if_pos hsm]
      obtain ⟨h1, h2, _, _, _⟩ := sdSmallest_spec s idx hsm
      exact ih _ _ (swapAt_indexInv s idx _ h h2 h1)
    · rwa [if_neg hsm]

theorem sift_downEF_eq (fuel : Nat) : ∀ (s : MinHeap) (idx : Nat), s.KeysPresent →
    MinHeap.sift_downEF fuel s idx = Except.ok (MinHeap.sift_downF fuel s idx) := by
  induction fuel with
  | zero => intro s idx _; rw [sift_downEF_zero, sift_downF_zero]
  | succ fuel ih =>
    intro s idx h
    rw [sift_downEF_succ, sift_downF_succ]
    by_cases hsm : s.sdSmallest idx ≠ idx
    · rw [if_pos hsm, if_pos hsm]
      obtain ⟨h1, h2, _, _, _⟩ := sdSmallest_spec s idx hsm
      rw [swapAtE_eq s idx _ h2 h1 h]
      exact ih _ _ (swapAt_keysPresent s idx _ h h2 h1)
    · rw [if_neg hsm, if_neg hsm]

theorem sift_down_perm (s : MinHeap) (idx : Nat) :
    (s.sift_down idx).heap.Perm s.heap := sift_downF_perm _ s idx

theorem sift_down_vals (s : MinHeap) (idx : Nat) :
    (s.sift_down idx).vals = s.vals := sift_downF_vals _ s idx

theorem sift_down_length (s : MinHeap) (idx : Nat) :
    (s.sift_down idx).heap.length = s.heap.length := sift_downF_length _ s idx

theorem sift_down_keysPresent (s : MinHeap) (idx : Nat) (h : s.KeysPresent) :
    (s.sift_down idx).KeysPresent := sift_downF_keysPresent _ s idx h

theorem sift_down_indexInv (s : MinHeap) (idx : Nat) (h : s.IndexInv) :
    (s.sift_down idx).IndexInv := sift_downF_indexInv _ s idx h

theorem sift_downE_eq (s : MinHeap) (idx : Nat) (h : s.KeysPresent) :
    s.sift_downE idx = Except.ok (s.sift_down idx) := sift_downEF_eq _ s idx h

/-! ### sift_up: step characterization and preservation -/

theorem get_parent_idx_zero : MinHeap.get_parent_idx 0 = -1 := by decide

theorem get_parent_idx_nat (idx : Nat) (h : 0 < idx) :
    MinHeap.get_parent_idx (idx : Int) = (parentIdx idx : Int) := by
  unfold MinHeap.get_parent_idx parentIdx
  have h1 : ((idx : Int) - 1) = ((idx - 1 : Nat) : Int) := by omega
  rw [h1]
  exact (Int.ofNat_fdiv (idx - 1) 2).symm

theorem parentIdx_lt (idx : Nat) (h : 0 < idx) : parentIdx idx < idx := by
  unfold parentIdx
  omega

theorem child_gt_of_parentIdx (j c : Nat) (h : parentIdx j = c) (hc : 0 < c) :
    c < j ∧ 0 < j := by
  unfold parentIdx at h
  omega

theorem sift_upF_zero (s : MinHeap) (idx : Nat) : MinHeap.sift_upF 0 s idx = s := rfl

theorem sift_upF_succ_root (fuel : Nat) (s : MinHeap) :
    MinHeap.sift_upF (fuel + 1) s 0 = s := by
  simp only [MinHeap.sift_upF]
  rw [if_neg]
  rintro ⟨h0, _⟩
  rw [Nat.cast_zero, get_parent_idx_zero] at h0
  omega

theorem sift_upF_succ_pos (fuel : Nat) (s : MinHeap) (idx : Nat) (h : 0 < idx) :
    MinHeap.sift_upF (fuel + 1) s idx =
      if s.heapVal idx < s.heapVal (parentIdx idx) then
        MinHeap.sift_upF fuel (s.swapAt (parentIdx idx) idx) (parentIdx idx)
      else s := by
  simp only [MinHeap.sift_upF, get_parent_idx_nat idx h, Int.toNat_ofNat]
  by_cases hc : s.heapVal idx < s.heapVal (parentIdx idx)
  · rw [if_pos ⟨Int.ofNat_nonneg _, hc⟩, if_pos hc]
  · rw [if_neg (fun hand => hc hand.2), if_neg hc]

theorem sift_upEF_zero (s : MinHeap) (idx : Nat) :
    MinHeap.sift_upEF 0 s idx = Except.ok s := rfl

theorem sift_upEF_succ_root (fuel : Nat) (s : MinHeap) :
    MinHeap.sift_upEF (fuel + 1) s 0 = Except.ok s := by
  simp only [MinHeap.sift_upEF]
  rw [if_neg]
  intro h0
  rw [Nat.cast_zero, get_parent_idx_zero] at h0
  omega

theorem sift_upEF_succ_pos (fuel : Nat) (s : MinHeap) (idx : Nat) (h : 0 < idx) :
    MinHeap.sift_upEF (fuel + 1) s idx =
      if parentIdx idx < s.heap.length ∧ idx < s.heap.length then
        if s.heapVal idx < s.heapVal (parentIdx idx) then
          match s.swapAtE (parentIdx idx) idx with
          | Except.error e => Except.error e
          | Except.ok s' => MinHeap.sift_upEF fuel s' (parentIdx idx)
        else Except.ok s
      else Except.error PyErr.indexError := by
  simp only [MinHeap.sift_upEF, get_parent_idx_nat idx h, Int.toNat_ofNat]
  rw [if_pos (Int.ofNat_nonneg _)]

theorem sift_upF_perm (fuel : Nat) : ∀ (s : MinHeap) (idx : Nat), idx < s.heap.length →
    (MinHeap.sift_upF fuel s idx).heap.Perm s.heap := by
  induction fuel with
  | zero => intro s idx _; rw [sift_upF_zero]
  | succ fuel ih =>
    intro s idx hidx
    cases Nat.eq_zero_or_pos idx with
    | inl h0 =>
      subst h0
      rw [sift_upF_succ_root]
    | inr hpos =>
      rw [sift_upF_succ_pos fuel s idx hpos]
      by_cases hc : s.heapVal idx < s.heapVal (parentIdx idx)
      · rw [if_pos hc]
        have hp : parentIdx idx < s.heap.length :=
          Nat.lt_trans (parentIdx_lt idx hpos) hidx
        have hlen : (s.swapAt (parentIdx idx) idx).heap.length = s.heap.length :=
          swapAt_length s _ idx
        exact (ih _ _ (by rw [hlen]; exact hp)).trans (swapAt_perm s _ idx hp hidx)
      · rw [if_neg hc]

theorem sift_upF_vals (fuel : Nat) : ∀ (s : MinHeap) (idx : Nat),
    (MinHeap.sift_upF fuel s idx).vals = s.vals := by
  induction fuel with
  | zero => intro s idx; rw [sift_upF_zero]
  | succ fuel ih =>
    intro s idx
    cases Nat.eq_zero_or_pos idx with
    | inl h0 =>
      subst h0
      rw [sift_upF_succ_root]
    | inr hpos =>
      rw [sift_upF_succ_pos fuel s idx hpos]
      by_cases hc : s.heapVal idx < s.heapVal (parentIdx idx)
      · rw [if_pos hc, ih, swapAt_vals]
      · rw [if_neg hc]

theorem sift_upF_length (fuel : Nat) (s : MinHeap) (idx : Nat) (h : idx < s.heap.length) :
    (MinHeap.sift_upF fuel s idx).heap.length = s.heap.length :=
  (sift_upF_perm fuel s idx h).length_eq

theorem sift_upF_keysPresent (fuel : Nat) : ∀ (s : MinHeap) (idx : Nat),
    idx < s.heap.length → s.KeysPresent → (MinHeap.sift_upF fuel s idx).KeysPresent := by
  induction fuel with
  | zero => intro s idx _ h; rwa [sift_upF_zero]
  | succ fuel ih =>
    intro s idx hidx h
    cases Nat.eq_zero_or_pos idx with
    | inl h0 =>
      subst h0
      rwa [sift_upF_succ_root]
    | inr hpos =>
      rw [sift_upF_succ_pos fuel s idx hpos]
      by_cases hc : s.heapVal idx < s.heapVal (parentIdx idx)
      · rw [if_pos hc]
        have hp : parentIdx idx < s.heap.length :=
          Nat.lt_trans (parentIdx_lt idx hpos) hidx
        have hlen : (s.swapAt (parentIdx idx) idx).heap.length = s.heap.length :=
          swapAt_length s _ idx
        exact ih _ _ (by rw [hlen]; exact hp)
          (swapAt_keysPresent s _ idx h hp hidx)
      · rwa [if_neg hc]

theorem sift_upF_indexInv (fuel : Nat) : ∀ (s : MinHeap) (idx : Nat),
    idx < s.heap.length → s.IndexInv → (MinHeap.sift_upF fuel s idx).IndexInv := by
  induction fuel with
  | zero => intro s idx _ h; rwa [sift_upF_zero]
  | succ fuel ih =>
    intro s idx hidx h
    cases Nat.eq_zero_or_pos idx with
    | inl h0 =>
      subst h0
      rwa [sift_upF_succ_root]
    | inr hpos =>
      rw [sift_upF_succ_pos fuel s idx hpos]
      by_cases hc : s.heapVal idx < s.heapVal (parentIdx idx)
      · rw [if_pos hc]
        have hp : parentIdx idx < s.heap.length :=
          Nat.lt_trans (parentIdx_lt idx hpos) hidx
        have hlen : (s.swapAt (parentIdx idx) idx).heap.length = s.heap.length :=
          swapAt_length s _ idx
        exact ih _ _ (by rw [hlen]; exact hp)
          (swapAt_indexInv s _ idx h hp hidx)
      · rwa [if_neg hc]

theorem sift_upEF_eq (fuel : Nat) : ∀ (s : MinHeap) (idx : Nat),
    idx < s.heap.length → s.KeysPresent →
    MinHeap.sift_upEF fuel s idx = Except.ok (MinHeap.sift_upF fuel s idx) := by
  induction fuel with
  | zero => intro s idx _ _; rw [sift_upEF_zero, sift_upF_zero]
  | succ fuel ih =>
    intro s idx hidx h
    cases Nat.eq_zero_or_pos idx with
    | inl h0 =>
      subst h0
      rw [sift_upEF_succ_root, sift_upF_succ_root]
    | inr hpos =>
      have hp : parentIdx idx < s.heap.length :=
        Nat.lt_trans (parentIdx_lt idx hpos) hidx
      rw [sift_upEF_succ_pos fuel s idx hpos, sift_upF_succ_pos fuel s idx hpos,
        if_pos ⟨hp, hidx⟩]
      by_cases hc : s.heapVal idx < s.heapVal (parentIdx idx)
      · rw [if_pos hc, if_pos hc, swapAtE_eq s _ idx hp hidx h]
        have hlen : (s.swapAt (parentIdx idx) idx).heap.length = s.heap.length :=
          swapAt_length s _ idx
        exact ih _ _ (by rw [hlen]; exact hp)
          (swapAt_keysPresent s _ idx h hp hidx)
      · rw [if_neg hc, if_neg hc]

theorem sift_up_perm (s : MinHeap) (idx : Nat) (h : idx < s.heap.length) :
    (s.sift_up idx).heap.Perm s.heap := sift_upF_perm _ s idx h

theorem sift_up_vals (s : MinHeap) (idx : Nat) :
    (s.sift_up idx).vals = s.vals := sift_upF_vals _ s idx

theorem sift_up_length (s : MinHeap) (idx : Nat) (h : idx < s.heap.length) :
    (s.sift_up idx).heap.length = s.heap.length := sift_upF_length _ s idx h

theorem sift_up_keysPresent (s : MinHeap) (idx : Nat) (hi : idx < s.heap.length)
    (h : s.KeysPresent) : (s.sift_up idx).KeysPresent :=
  sift_upF_keysPresent _ s idx hi h

theorem sift_up_indexInv (s : MinHeap) (idx : Nat) (hi : idx < s.heap.length)
    (h : s.IndexInv) : (s.sift_up idx).IndexInv :=
  sift_upF_indexInv _ s idx hi h

theorem sift_upE_eq (s : MinHeap) (idx : Nat) (hi : idx < s.heap.length)
    (h : s.KeysPresent) : s.sift_upE idx = Except.ok (s.sift_up idx) :=
  sift_upEF_eq _ s idx hi h

/-! ### The subtree relation on array slots -/

/-- Desc i j: slot j lies in the subtree rooted at slot i of the implicit
binary tree on array slots (children of j are j*2+1 and j*2+2). -/
inductive Desc : Nat → Nat → Prop where
  | refl (i : Nat) : Desc i i
  | left {i j : Nat} : Desc i j → Desc i (MinHeap.get_left_child_idx j)
  | right {i j : Nat} : Desc i j → Desc i (MinHeap.get_right_child_idx j)

theorem parentIdx_left_child (j : Nat) : parentIdx (MinHeap.get_left_child_idx j) = j := by
  unfold parentIdx MinHeap.get_left_child_idx
  omega

theorem parentIdx_right_child (j : Nat) : parentIdx (MinHeap.get_right_child_idx j) = j := by
  unfold parentIdx MinHeap.get_right_child_idx
  omega

theorem child_of_parentIdx (j : Nat) (h : 0 < j) :
    j = MinHeap.get_left_child_idx (parentIdx j) ∨
      j = MinHeap.get_right_child_idx (parentIdx j) := by
  unfold parentIdx MinHeap.get_left_child_idx MinHeap.get_right_child_idx
  omega

theorem Desc.le {i j : Nat} (h : Desc i j) : i ≤ j := by
  induction h with
  | refl => exact le_refl _
  | left _ ih =>
    unfold MinHeap.get_left_child_idx
    omega
  | right _ ih =>
    unfold MinHeap.get_right_child_idx
    omega

theorem Desc.trans {i j k : Nat} (h1 : Desc i j) (h2 : Desc j k) : Desc i k := by
  induction h2 with
  | refl => exact h1
  | left _ ih => exact Desc.left ih
  | right _ ih => exact Desc.right ih

theorem Desc.parentDesc {i j : Nat} (h : Desc i j) (hne : j ≠ i) :
    Desc i (parentIdx j) := by
  induction h with
  | refl => exact absurd rfl hne
  | left hd _ =>
    rw [parentIdx_left_child]
    exact hd
  | right hd _ =>
    rw [parentIdx_right_child]
    exact hd

theorem Desc.lt_of_ne {i j : Nat} (h : Desc i j) (hne : j ≠ i) : i < j := by
  have hj : 0 < j := by
    rcases Nat.eq_zero_or_pos j with h0 | h0
    · subst h0
      have := h.le
      omega
    · exact h0
  have hp := h.parentDesc hne
  have h1 : i ≤ parentIdx j := hp.le
  have h2 : parentIdx j < j := parentIdx_lt j hj
  omega

theorem Desc.child {i j k : Nat} (h : Desc i j) (hk : parentIdx k = j) (hkpos : 0 < k) :
    Desc i k := by
  rcases child_of_parentIdx k hkpos with hc | hc
  · rw [hc, hk]
    exact Desc.left h
  · rw [hc, hk]
    exact Desc.right h

theorem Desc.zero (j : Nat) : Desc 0 j := by
  induction j using Nat.strong_induction_on with
  | _ j ih =>
    rcases Nat.eq_zero_or_pos j with h0 | h0
    · subst h0
      exact Desc.refl 0
    · exact (ih (parentIdx j) (parentIdx_lt j h0)).child rfl h0

/-- If every edge inside the subtree rooted at root holds, the root's value
is below every in-range slot of the subtree. -/
theorem desc_dominates (s : MinHeap) (root : Nat)
    (hedges : ∀ j, Desc root j → j ≠ root → j < s.heap.length →
      s.heapVal (parentIdx j) ≤ s.heapVal j) :
    ∀ j, Desc root j → j < s.heap.length → s.heapVal root ≤ s.heapVal j := by
  intro j hd
  induction hd with
  | refl => intro _; exact le_refl _
  | @left j0 hd ih =>
    intro hlt
    have hj0 : j0 < s.heap.length := by
      have : j0 < MinHeap.get_left_child_idx j0 := by
        unfold MinHeap.get_left_child_idx
        omega
      omega
    have hne : MinHeap.get_left_child_idx j0 ≠ root := by
      have h1 : root ≤ j0 := hd.le
      unfold MinHeap.get_left_child_idx
      omega
    have he := hedges _ (Desc.left hd) hne hlt
    rw [parentIdx_left_child] at he
    exact le_trans (ih hj0) he
  | @right j0 hd ih =>
    intro hlt
    have hj0 : j0 < s.heap.length := by
      have : j0 < MinHeap.get_right_child_idx j0 := by
        unfold MinHeap.get_right_child_idx
        omega
      omega
    have hne : MinHeap.get_right_child_idx j0 ≠ root := by
      have h1 : root ≤ j0 := hd.le
      unfold MinHeap.get_right_child_idx
      omega
    have he := hedges _ (Desc.right hd) hne hlt
    rw [parentIdx_right_child] at he
    exact le_trans (ih hj0) he

/-- On a fully heap-ordered array the root value is the minimum. -/
theorem heapOrd_root_le (s : MinHeap) (h : s.HeapOrd) :
    ∀ j, j < s.heap.length → s.heapVal 0 ≤ s.heapVal j := by
  intro j
  induction j using Nat.strong_induction_on with
  | _ j ih =>
    intro hj
    rcases Nat.eq_zero_or_pos j with h0 | h0
    · subst h0
      exact le_refl _
    · have hp : parentIdx j < j := parentIdx_lt j h0
      exact le_trans (ih (parentIdx j) hp (lt_trans hp hj)) (h j h0 hj)

/-! ### sift_down restores heap order on a subtree -/

/-- When a sift_down round decides not to swap, the current slot is no
larger than either of its in-range children. -/
theorem sdSmallest_eq_spec (s : MinHeap) (idx : Nat) (h : s.sdSmallest idx = idx) :
    ∀ c, (c = MinHeap.get_left_child_idx idx ∨ c = MinHeap.get_right_child_idx idx) →
      c < s.heap.length → s.heapVal idx ≤ s.heapVal c := by
  have hlidx : idx < MinHeap.get_left_child_idx idx := by
    unfold MinHeap.get_left_child_idx
    omega
  have hridx : idx < MinHeap.get_right_child_idx idx := by
    unfold MinHeap.get_right_child_idx
    omega
  simp only [MinHeap.sdSmallest] at h
  by_cases h1 : MinHeap.get_left_child_idx idx < s.heap.length ∧
      s.heapVal (MinHeap.get_left_child_idx idx) < s.heapVal idx
  · rw [if_pos h1] at h
    by_cases h2 : MinHeap.get_right_child_idx idx < s.heap.length ∧
        s.heapVal (MinHeap.get_right_child_idx idx) <
          s.heapVal (MinHeap.get_left_child_idx idx)
    · rw [if_pos h2] at h
      omega
    · rw [if_neg h2] at h
      omega
  · rw [if_neg h1] at h
    by_cases h2 : MinHeap.get_right_child_idx idx < s.heap.length ∧
        s.heapVal (MinHeap.get_right_child_idx idx) < s.heapVal idx
    · rw [if_pos h2] at h
      omega
    · rintro c (rfl | rfl) hc
      · by_contra hlt
        exact h1 ⟨hc, lt_of_not_le hlt⟩
      · by_contra hlt
        exact h2 ⟨hc, lt_of_not_le hlt⟩

/-- Core lemma about one full run of sift_down from slot cur.  If every edge
strictly inside the subtree of cur holds (both child subtrees are heaps),
then afterwards (a) every edge of the subtree of cur holds, (b) slots
outside the subtree are untouched, and (c) every value inside the subtree
comes from the subtree. -/
theorem sift_downF_subtree (fuel : Nat) : ∀ (s : MinHeap) (cur : Nat),
    s.heap.length ≤ cur + fuel →
    (∀ j, Desc cur j → j ≠ cur → parentIdx j ≠ cur → j < s.heap.length →
      s.heapVal (parentIdx j) ≤ s.heapVal j) →
    (∀ j, Desc cur j → j ≠ cur → j < s.heap.length →
      (MinHeap.sift_downF fuel s cur).heapVal (parentIdx j) ≤
        (MinHeap.sift_downF fuel s cur).heapVal j) ∧
    (∀ j, ¬ Desc cur j → (MinHeap.sift_downF fuel s cur).heapVal j = s.heapVal j) ∧
    (∀ j, Desc cur j → j < s.heap.length →
      ∃ j0, Desc cur j0 ∧ j0 < s.heap.length ∧
        (MinHeap.sift_downF fuel s cur).heapVal j = s.heapVal j0) := by
  induction fuel with
  | zero =>
    intro s cur hfuel hA1
    rw [sift_downF_zero]
    refine ⟨?_, fun j _ => rfl, ?_⟩
    · intro j hd hne hj
      have := hd.lt_of_ne hne
      omega
    · intro j hd hj
      have := hd.le
      omega
  | succ fuel ih =>
    intro s cur hfuel hA1
    rw [sift_downF_succ]
    by_cases hsm : s.sdSmallest cur ≠ cur
    · rw [if_pos hsm]
      obtain ⟨hsmn, hcurn, hchild, hlt, hmin⟩ := sdSmallest_spec s cur hsm
      have hDsm : Desc cur (s.sdSmallest cur) := by
        rcases hchild with hc | hc
        · rw [hc]
          exact Desc.left (Desc.refl cur)
        · rw [hc]
          exact Desc.right (Desc.refl cur)
      have hcursm : cur < s.sdSmallest cur := hDsm.lt_of_ne hsm
      have hpar : parentIdx (s.sdSmallest cur) = cur := by
        rcases hchild with hc | hc
        · rw [hc, parentIdx_left_child]
        · rw [hc, parentIdx_right_child]
      have hlen : (s.swapAt cur (s.sdSmallest cur)).heap.length = s.heap.length :=
        swapAt_length s cur (s.sdSmallest cur)
      have hNds : ¬ Desc (s.sdSmallest cur) cur := fun hd => by
        have := hd.le
        omega
      -- every edge strictly inside the subtree of sm holds in s
      have hedges_sm : ∀ jj, Desc (s.sdSmallest cur) jj → jj ≠ s.sdSmallest cur →
          jj < s.heap.length → s.heapVal (parentIdx jj) ≤ s.heapVal jj := by
        intro jj hd hne hjj
        have hjjgt : s.sdSmallest cur < jj := hd.lt_of_ne hne
        have hpdesc : Desc (s.sdSmallest cur) (parentIdx jj) := hd.parentDesc hne
        have hpge : s.sdSmallest cur ≤ parentIdx jj := hpdesc.le
        exact hA1 jj (hDsm.trans hd) (by omega) (by omega) hjj
      have hdom : ∀ j0, Desc (s.sdSmallest cur) j0 → j0 < s.heap.length →
          s.heapVal (s.sdSmallest cur) ≤ s.heapVal j0 :=
        desc_dominates s (s.sdSmallest cur) hedges_sm
      have hvalcur : (s.swapAt cur (s.sdSmallest cur)).heapVal cur =
          s.heapVal (s.sdSmallest cur) := swapAt_heapVal_fst s cur _ hcurn
      have hvalsm : (s.swapAt cur (s.sdSmallest cur)).heapVal (s.sdSmallest cur) =
          s.heapVal cur := swapAt_heapVal_snd s cur _ hsmn
      -- the swapped state dominates the whole subtree of sm from slot cur
      have hmin2 : ∀ j0, Desc (s.sdSmallest cur) j0 → j0 < s.heap.length →
          (s.swapAt cur (s.sdSmallest cur)).heapVal cur ≤
            (s.swapAt cur (s.sdSmallest cur)).heapVal j0 := by
        intro j0 hd0 hj0
        rw [hvalcur]
        by_cases h0 : j0 = s.sdSmallest cur
        · subst h0
          rw [hvalsm]
          exact le_of_lt hlt
        · have hgt : s.sdSmallest cur < j0 := hd0.lt_of_ne h0
          rw [swapAt_heapVal_other s cur _ j0 (by omega) h0]
          exact hdom j0 hd0 hj0
      -- hypotheses of the induction for the swapped state from sm
      have hA1'' : ∀ j, Desc (s.sdSmallest cur) j → j ≠ s.sdSmallest cur →
          parentIdx j ≠ s.sdSmallest cur →
          j < (s.swapAt cur (s.sdSmallest cur)).heap.length →
          (s.swapAt cur (s.sdSmallest cur)).heapVal (parentIdx j) ≤
            (s.swapAt cur (s.sdSmallest cur)).heapVal j := by
        intro j hd hne hpne hj
        rw [hlen] at hj
        have hjgt : s.sdSmallest cur < j := hd.lt_of_ne hne
        have hpdesc : Desc (s.sdSmallest cur) (parentIdx j) := hd.parentDesc hne
        have hpge : s.sdSmallest cur ≤ parentIdx j := hpdesc.le
        rw [swapAt_heapVal_other s cur _ j (by omega) (by omega),
          swapAt_heapVal_other s cur _ (parentIdx j) (by omega) hpne]
        exact hedges_sm j hd hne hj
      obtain ⟨ta, tb, td⟩ := ih (s.swapAt cur (s.sdSmallest cur)) (s.sdSmallest cur)
        (by omega) hA1''
      refine ⟨?_, ?_, ?_⟩
      · -- (a) all edges of the subtree of cur hold afterwards
        intro j hd hne hj
        by_cases hjsm : j = s.sdSmallest cur
        · subst hjsm
          rw [hpar]
          have hc : (MinHeap.sift_downF fuel (s.swapAt cur (s.sdSmallest cur))
              (s.sdSmallest cur)).heapVal cur =
              (s.swapAt cur (s.sdSmallest cur)).heapVal cur := tb cur hNds
          rw [hc]
          obtain ⟨j0, hd0, hj0, heq⟩ := td (s.sdSmallest cur) (Desc.refl _)
            (by rw [hlen]; exact hsmn)
          rw [heq]
          exact hmin2 j0 hd0 (by rwa [hlen] at hj0)
        · by_cases hds : Desc (s.sdSmallest cur) j
          · exact ta j hds hjsm (by rw [hlen]; exact hj)
          · have hjcur : cur < j := hd.lt_of_ne hne
            have hnsm : j ≠ s.sdSmallest cur := hjsm
            by_cases hpj : parentIdx j = cur
            · -- j is the sibling of sm
              have hjform := child_of_parentIdx j (by omega)
              rw [hpj] at hjform
              have h1 : (MinHeap.sift_downF fuel (s.swapAt cur (s.sdSmallest cur))
                  (s.sdSmallest cur)).heapVal j =
                  (s.swapAt cur (s.sdSmallest cur)).heapVal j := tb j hds
              rw [hpj, h1, tb cur hNds, hvalcur,
                swapAt_heapVal_other s cur _ j (by omega) hnsm]
              exact hmin j hjform hj
            · have hpnsm : parentIdx j ≠ s.sdSmallest cur := by
                intro hpeq
                exact hds ((Desc.refl _).child hpeq (by omega))
              have hpnd : ¬ Desc (s.sdSmallest cur) (parentIdx j) := by
                intro hdp
                exact hds (hdp.child rfl (by omega))
              rw [tb j hds, tb (parentIdx j) hpnd,
                swapAt_heapVal_other s cur _ j (by omega) hnsm,
                swapAt_heapVal_other s cur _ (parentIdx j) hpj hpnsm]
              exact hA1 j hd hne hpj hj
      · -- (b) slots outside the subtree of cur are untouched
        intro j hd
        have hds : ¬ Desc (s.sdSmallest cur) j := fun h => hd (hDsm.trans h)
        have hjcur : j ≠ cur := fun h => hd (h ▸ Desc.refl cur)
        have hjsm : j ≠ s.sdSmallest cur := fun h => hd (h ▸ hDsm)
        rw [tb j hds, swapAt_heapVal_other s cur _ j hjcur hjsm]
      · -- (c) values of the subtree of cur come from the subtree of cur
        intro j hd hj
        by_cases hds : Desc (s.sdSmallest cur) j
        · obtain ⟨j0, hd0, hj0, heq⟩ := td j hds (by rw [hlen]; exact hj)
          rw [hlen] at hj0
          by_cases hj0sm : j0 = s.sdSmallest cur
          · subst hj0sm
            rw [heq, hvalsm]
            exact ⟨cur, Desc.refl cur, hcurn, rfl⟩
          · have : s.sdSmallest cur < j0 := hd0.lt_of_ne hj0sm
            rw [heq, swapAt_heapVal_other s cur _ j0 (by omega) hj0sm]
            exact ⟨j0, hDsm.trans hd0, hj0, rfl⟩
        · rw [tb j hds]
          by_cases hjcur : j = cur
          · rw [hjcur, hvalcur]
            exact ⟨s.sdSmallest cur, hDsm, hsmn, rfl⟩
          · have hjsm : j ≠ s.sdSmallest cur := fun h => hds (h ▸ Desc.refl _)
            rw [swapAt_heapVal_other s cur _ j hjcur hjsm]
            exact ⟨j, hd, hj, rfl⟩
    · rw [if_neg hsm]
      push_neg at hsm
      refine ⟨?_, fun j _ => rfl, fun j hd hj => ⟨j, hd, hj, rfl⟩⟩
      intro j hd hne hj
      by_cases hpj : parentIdx j = cur
      · have hjcur : cur < j := hd.lt_of_ne hne
        have hjform := child_of_parentIdx j (by omega)
        rw [hpj] at hjform
        rw [hpj]
        exact sdSmallest_eq_spec s cur hsm j hjform hj
      · exact hA1 j hd hne hpj hj

/-- sift_down from the root turns heap-except-at-the-root into a heap. -/
theorem sift_down_root_heapOrd (s : MinHeap)
    (h : ∀ j, j ≠ 0 → parentIdx j ≠ 0 → j < s.heap.length →
      s.heapVal (parentIdx j) ≤ s.heapVal j) :
    (s.sift_down 0).HeapOrd := by
  obtain ⟨ta, _, _⟩ := sift_downF_subtree (s.heap.length + 1) s 0 (by omega)
    (fun j hd hne hpne hj => h j hne hpne hj)
  intro i hi hilen
  rw [sift_down_length] at hilen
  exact ta i (Desc.zero i) (by omega) hilen

/-! ### build_heap: heap order and preservation -/

/-- All edges whose parent slot is at least k hold. -/
def MinHeap.BInvFrom (s : MinHeap) (k : Nat) : Prop :=
  ∀ j, 0 < j → j < s.heap.length → k ≤ parentIdx j →
    s.heapVal (parentIdx j) ≤ s.heapVal j

theorem build_heapAux_heapOrd : ∀ (i : Nat) (s : MinHeap), s.BInvFrom (i + 1) →
    (s.build_heapAux i).HeapOrd := by
  intro i
  induction i with
  | zero =>
    intro s hB
    show (s.sift_down 0).HeapOrd
    apply sift_down_root_heapOrd
    intro j hne hpne hj
    exact hB j (by omega) hj (by omega)
  | succ i ih =>
    intro s hB
    show ((s.sift_down (i + 1)).build_heapAux i).HeapOrd
    apply ih
    obtain ⟨ta, tb, td⟩ := sift_downF_subtree (s.heap.length + 1) s (i + 1) (by omega)
      (fun j hd hne hpne hj => by
        have hgt : i + 1 < j := hd.lt_of_ne hne
        have hpdesc : Desc (i + 1) (parentIdx j) := hd.parentDesc hne
        have hpge : i + 1 ≤ parentIdx j := hpdesc.le
        exact hB j (by omega) hj (by omega))
    intro j hpos hj hge
    rw [sift_down_length] at hj
    by_cases hd : Desc (i + 1) j
    · by_cases hne : j = i + 1
      · subst hne
        have := parentIdx_lt (i + 1) (by omega)
        omega
      · exact ta j hd hne hj
    · have hpne : parentIdx j ≠ i + 1 := by
        intro hpeq
        exact hd ((Desc.refl _).child hpeq hpos)
      have hpnd : ¬ Desc (i + 1) (parentIdx j) := by
        intro hdp
        exact hd (hdp.child rfl hpos)
      show (s.sift_down (i + 1)).heapVal (parentIdx j) ≤ (s.sift_down (i + 1)).heapVal j
      rw [show s.sift_down (i + 1) =
          MinHeap.sift_downF (s.heap.length + 1) s (i + 1) from rfl,
        tb j hd, tb (parentIdx j) hpnd]
      exact hB j hpos hj (by omega)

theorem build_heapAux_perm : ∀ (i : Nat) (s : MinHeap),
    (s.build_heapAux i).heap.Perm s.heap := by
  intro i
  induction i with
  | zero => intro s; exact sift_down_perm s 0
  | succ i ih =>
    intro s
    exact (ih _).trans (sift_down_perm s (i + 1))

theorem build_heapAux_vals : ∀ (i : Nat) (s : MinHeap),
    (s.build_heapAux i).vals = s.vals := by
  intro i
  induction i with
  | zero => intro s; exact sift_down_vals s 0
  | succ i ih =>
    intro s
    rw [show (s.build_heapAux (i + 1)) = ((s.sift_down (i + 1)).build_heapAux i) from rfl,
      ih, sift_down_vals]

theorem build_heapAux_indexInv : ∀ (i : Nat) (s : MinHeap), s.IndexInv →
    (s.build_heapAux i).IndexInv := by
  intro i
  induction i with
  | zero => intro s h; exact sift_down_indexInv s 0 h
  | succ i ih =>
    intro s h
    exact ih _ (sift_down_indexInv s (i + 1) h)

theorem build_heapAux_keysPresent : ∀ (i : Nat) (s : MinHeap), s.KeysPresent →
    (s.build_heapAux i).KeysPresent := by
  intro i
  induction i with
  | zero => intro s h; exact sift_down_keysPresent s 0 h
  | succ i ih =>
    intro s h
    exact ih _ (sift_down_keysPresent s (i + 1) h)

theorem build_heapAuxE_eq : ∀ (i : Nat) (s : MinHeap), s.KeysPresent →
    s.build_heapAuxE i = Except.ok (s.build_heapAux i) := by
  intro i
  induction i with
  | zero => intro s h; exact sift_downE_eq s 0 h
  | succ i ih =>
    intro s h
    show (match s.sift_downE (i + 1) with
      | Except.error e => Except.error e
      | Except.ok s' => s'.build_heapAuxE i) = _
    rw [sift_downE_eq s (i + 1) h]
    exact ih _ (sift_down_keysPresent s (i + 1) h)

theorem startFrom_spec (n : Nat) (h : 2 ≤ n) :
    MinHeap.get_parent_idx ((n : Int) - 1) = (((n - 2) / 2 : Nat) : Int) := by
  unfold MinHeap.get_parent_idx
  have h1 : ((n : Int) - 1 - 1) = ((n - 2 : Nat) : Int) := by omega
  rw [h1]
  exact (Int.ofNat_fdiv (n - 2) 2).symm

theorem startFrom_neg (n : Nat) (h : n < 2) :
    MinHeap.get_parent_idx ((n : Int) - 1) < 0 := by
  interval_cases n
  · decide
  · decide

/-- Heapify produces a heap-ordered array, for every input. -/
theorem build_heap_heapOrd (array : List Ident) (vals : Ident → Int) :
    (MinHeap.build_heap array vals).HeapOrd := by
  simp only [MinHeap.build_heap]
  by_cases h : 0 ≤ MinHeap.get_parent_idx ((array.length : Int) - 1)
  · rw [if_pos h]
    have hn : 2 ≤ array.length := by
      by_contra hlt
      exact absurd h (not_le.mpr (startFrom_neg _ (by omega)))
    rw [startFrom_spec _ hn, Int.toNat_ofNat]
    apply build_heapAux_heapOrd
    intro j hpos hj hge
    exfalso
    have hj2 : 2 * parentIdx j + 1 ≤ j := by
      unfold parentIdx
      omega
    unfold parentIdx at hge hj2
    simp only at hj
    omega
  · rw [if_neg h]
    intro j hpos hj
    exfalso
    have hn : array.length < 2 := by
      by_contra hge
      rw [startFrom_spec _ (by omega)] at h
      exact h (Int.ofNat_nonneg _)
    simp only at hj
    omega

/-! ### sift_up restores heap order -/

/-- Core lemma for one full run of sift_up from slot idx.  If every edge not
entering idx holds and idx's parent is below idx's children (the state of
affairs right after an append or a key decrease), the result is a heap. -/
theorem sift_upF_heapOrd (fuel : Nat) : ∀ (s : MinHeap) (idx : Nat),
    idx < fuel → idx < s.heap.length →
    (∀ j, 0 < j → j < s.heap.length → j ≠ idx →
      s.heapVal (parentIdx j) ≤ s.heapVal j) →
    (∀ j, j < s.heap.length → 0 < idx → parentIdx j = idx →
      s.heapVal (parentIdx idx) ≤ s.heapVal j) →
    (MinHeap.sift_upF fuel s idx).HeapOrd := by
  induction fuel with
  | zero =>
    intro s idx hfuel
    omega
  | succ fuel ih =>
    intro s idx hfuel hidx h1 h2
    cases Nat.eq_zero_or_pos idx with
    | inl h0 =>
      subst h0
      rw [sift_upF_succ_root]
      intro j hj hjn
      exact h1 j hj hjn (by omega)
    | inr hpos =>
      rw [sift_upF_succ_pos fuel s idx hpos]
      by_cases hc : s.heapVal idx < s.heapVal (parentIdx idx)
      · rw [if_pos hc]
        have hplt : parentIdx idx < idx := parentIdx_lt idx hpos
        have hpn : parentIdx idx < s.heap.length := lt_trans hplt hidx
        have hlen : (s.swapAt (parentIdx idx) idx).heap.length = s.heap.length :=
          swapAt_length s _ idx
        apply ih (s.swapAt (parentIdx idx) idx) (parentIdx idx) (by omega)
          (by rw [hlen]; exact hpn)
        · -- every edge not entering the new position holds after the swap
          intro j hj hjn hne
          rw [hlen] at hjn
          by_cases hji : j = idx
          · rw [hji, show parentIdx idx = parentIdx idx from rfl,
              swapAt_heapVal_fst s _ idx hpn, swapAt_heapVal_snd s _ idx hidx]
            exact le_of_lt hc
          · by_cases hpj : parentIdx j = idx
            · have hjgt : idx < j := by
                unfold parentIdx at hpj
                omega
              rw [hpj, swapAt_heapVal_snd s _ idx hidx,
                swapAt_heapVal_other s _ idx j (by omega) hji]
              exact h2 j hjn hpos hpj
            · by_cases hpj2 : parentIdx j = parentIdx idx
              · rw [hpj2, swapAt_heapVal_fst s _ idx hpn,
                  swapAt_heapVal_other s _ idx j hne hji]
                have e1 := h1 j hj hjn hji
                rw [hpj2] at e1
                exact le_of_lt (lt_of_lt_of_le hc e1)
              · rw [swapAt_heapVal_other s _ idx j hne hji,
                  swapAt_heapVal_other s _ idx (parentIdx j) hpj2 hpj]
                exact h1 j hj hjn hji
        · -- the grandparent is below the new position's children
          intro j hjn hppos hpj
          rw [hlen] at hjn
          have hg : parentIdx (parentIdx idx) < parentIdx idx :=
            parentIdx_lt _ hppos
          have hgne1 : parentIdx (parentIdx idx) ≠ parentIdx idx := Nat.ne_of_lt hg
          have hgne2 : parentIdx (parentIdx idx) ≠ idx := Nat.ne_of_lt (lt_trans hg hplt)
          rw [swapAt_heapVal_other s _ idx (parentIdx (parentIdx idx)) hgne1 hgne2]
          by_cases hji : j = idx
          · rw [hji, swapAt_heapVal_snd s _ idx hidx]
            exact h1 (parentIdx idx) hppos hpn (by omega)
          · have hjgt : parentIdx idx < j ∧ 0 < j :=
              child_gt_of_parentIdx j _ hpj hppos
            rw [swapAt_heapVal_other s _ idx j (Nat.ne_of_gt hjgt.1) hji]
            have e1 := h1 j hjgt.2 hjn hji
            rw [hpj] at e1
            exact le_trans (h1 (parentIdx idx) hppos hpn (by omega)) e1
      · rw [if_neg hc]
        intro j hj hjn
        by_cases hji : j = idx
        · rw [hji]
          exact not_lt.mp hc
        · exact h1 j hj hjn hji

/-! ### insert: characterization and preservation -/

/-- The state right after insert's append and index write, before sift_up. -/
def MinHeap.insertState (s : MinHeap) (value : Ident) (v : Int) : MinHeap :=
  ⟨s.heap ++ [value], dictSet s.idx_of_element value (s.heap.length + 1 - 1),
    Function.update s.vals value v⟩

theorem insert_eq (s : MinHeap) (value : Ident) (v : Int) :
    s.insert value v =
      (s.insertState value v).sift_up ((s.insertState value v).heap.length - 1) := rfl

theorem insertE_eq_sift (s : MinHeap) (value : Ident) (v : Int) :
    s.insertE value v =
      (s.insertState value v).sift_upE ((s.insertState value v).heap.length - 1) := rfl

theorem insertState_length (s : MinHeap) (value : Ident) (v : Int) :
    (s.insertState value v).heap.length = s.heap.length + 1 := by
  simp [MinHeap.insertState]

theorem insertState_heapVal_old (s : MinHeap) (value : Ident) (v : Int) (k : Nat)
    (hk : k < s.heap.length) (hnotin : value ∉ s.heap) :
    (s.insertState value v).heapVal k = s.heapVal k := by
  unfold MinHeap.heapVal MinHeap.insertState
  simp only
  rw [List.getD_append _ _ _ _ hk, Function.update_apply]
  rw [if_neg]
  intro heq
  exact hnotin (heq ▸ hp_getD_mem s.heap k hk)

theorem insertState_heapVal_new (s : MinHeap) (value : Ident) (v : Int) :
    (s.insertState value v).heapVal s.heap.length = v := by
  unfold MinHeap.heapVal MinHeap.insertState
  simp only
  rw [List.getD_append_right _ _ _ _ (le_refl _), Nat.sub_self]
  simp

theorem insertState_keysPresent (s : MinHeap) (value : Ident) (v : Int)
    (h : s.KeysPresent) : (s.insertState value v).KeysPresent := by
  intro e he
  simp only [MinHeap.insertState, List.mem_append, List.mem_singleton] at he
  rcases he with he | rfl
  · exact dictGet?_isSome_dictSet _ _ _ _ (h e he)
  · show (dictGet? (dictSet s.idx_of_element e (s.heap.length + 1 - 1)) e).isSome
    rw [dictGet?_dictSet_self]
    rfl

theorem insertState_indexInv (s : MinHeap) (value : Ident) (v : Int)
    (h : s.IndexInv) (hnotin : value ∉ s.heap) : (s.insertState value v).IndexInv := by
  have hnokey : dictGet? s.idx_of_element value = none := by
    cases hl : dictGet? s.idx_of_element value with
    | none => rfl
    | some i =>
      obtain ⟨hi, hgd⟩ := h.entry_spec hl
      exact absurd (hgd ▸ hp_getD_mem s.heap i hi) hnotin
  refine ⟨?_, ?_, ?_, insertState_keysPresent s value v h.keysPresent⟩
  · show (s.heap ++ [value]).Nodup
    rw [List.nodup_append]
    exact ⟨h.heapNodup, List.nodup_singleton value,
      by simpa using fun hv => hnotin hv⟩
  · exact keysNodup_dictSet _ _ _ h.keysNodup
  · intro p hp
    show p.2 < (s.heap ++ [value]).length ∧ (s.heap ++ [value]).getD p.2 0 = p.1
    obtain ⟨x, w⟩ := p
    simp only [MinHeap.insertState] at hp
    rw [mem_dictSet_iff _ _ _ _ _ h.keysNodup] at hp
    rcases hp with ⟨rfl, rfl⟩ | ⟨hx, hp⟩
    · constructor
      · simp
      · rw [List.getD_append_right _ _ _ _ (by omega)]
        simp
    · obtain ⟨hw, hgd⟩ := h.2.2.1 (x, w) hp
      refine ⟨by simp; omega, ?_⟩
      rw [List.getD_append _ _ _ _ hw]
      exact hgd

theorem insert_vals (s : MinHeap) (value : Ident) (v : Int) :
    (s.insert value v).vals = Function.update s.vals value v := by
  rw [insert_eq, sift_up_vals]
  rfl

theorem insert_perm (s : MinHeap) (value : Ident) (v : Int) :
    (s.insert value v).heap.Perm (s.heap ++ [value]) := by
  rw [insert_eq]
  exact sift_up_perm _ _ (by rw [insertState_length]; simp [MinHeap.insertState])

theorem insert_length (s : MinHeap) (value : Ident) (v : Int) :
    (s.insert value v).heap.length = s.heap.length + 1 := by
  rw [(insert_perm s value v).length_eq]
  simp

theorem insert_indexInv (s : MinHeap) (value : Ident) (v : Int)
    (h : s.IndexInv) (hnotin : value ∉ s.heap) : (s.insert value v).IndexInv := by
  rw [insert_eq]
  exact sift_up_indexInv _ _ (by rw [insertState_length]; simp [MinHeap.insertState])
    (insertState_indexInv s value v h hnotin)

theorem insert_heapOrd (s : MinHeap) (value : Ident) (v : Int)
    (hho : s.HeapOrd) (hnotin : value ∉ s.heap) : (s.insert value v).HeapOrd := by
  rw [insert_eq]
  have hlen : (s.insertState value v).heap.length = s.heap.length + 1 :=
    insertState_length s value v
  have hidx : (s.insertState value v).heap.length - 1 = s.heap.length := by omega
  rw [hidx]
  apply sift_upF_heapOrd (s.heap.length + 1) _ _ (by omega) (by omega)
  · intro j hj hjn hne
    rw [hlen] at hjn
    have hjlt : j < s.heap.length := by omega
    have hplt : parentIdx j < s.heap.length := lt_trans (parentIdx_lt j hj) hjlt
    rw [insertState_heapVal_old s value v j hjlt hnotin,
      insertState_heapVal_old s value v (parentIdx j) hplt hnotin]
    exact hho j hj hjlt
  · intro j hjn hpos hpj
    rw [hlen] at hjn
    have := child_gt_of_parentIdx j _ hpj hpos
    unfold parentIdx at hpj
    omega

theorem insertE_eq (s : MinHeap) (value : Ident) (v : Int) (h : s.KeysPresent) :
    s.insertE value v = Except.ok (s.insert value v) := by
  rw [insertE_eq_sift, insert_eq]
  exact sift_upE_eq _ _ (by rw [insertState_length]; simp [MinHeap.insertState])
    (insertState_keysPresent s value v h)

/-! ### decrease_key: characterization and preservation -/

/-- The state right after key.val = newValue, before sift_up. -/
def MinHeap.decreaseState (s : MinHeap) (key : Ident) (newValue : Int) : MinHeap :=
  ⟨s.heap, s.idx_of_element, Function.update s.vals key newValue⟩

theorem decreaseState_indexInv (s : MinHeap) (key : Ident) (newValue : Int)
    (h : s.IndexInv) : (s.decreaseState key newValue).IndexInv := h

theorem decreaseState_keysPresent (s : MinHeap) (key : Ident) (newValue : Int)
    (h : s.KeysPresent) : (s.decreaseState key newValue).KeysPresent := h

/-- A successful decrease_key is the priority update followed by sift_up from
the key's slot. -/
theorem decrease_key_ok_char (s : MinHeap) (key : Ident) (newValue : Int) (i : Nat)
    (hl : dictGet? s.idx_of_element key = some i) (hi : i < s.heap.length)
    (hv : newValue < s.heapVal i) (hkp : s.KeysPresent) :
    s.decrease_key key newValue =
      Except.ok ((s.decreaseState key newValue).sift_up i) := by
  unfold MinHeap.decrease_key
  rw [hl]
  simp only [if_pos hi, if_pos hv]
  show (match dictGet? s.idx_of_element key with
    | none => Except.error PyErr.keyError
    | some j => (s.decreaseState key newValue).sift_upE j) = _
  rw [hl]
  exact sift_upE_eq _ i hi (decreaseState_keysPresent s key newValue hkp)

/-- After a successful decrease at slot i (holding the key, with a strictly
smaller new priority), the sifted state is a heap again. -/
theorem decrease_heapOrd (s : MinHeap) (key : Ident) (newValue : Int) (i : Nat)
    (hinv : s.IndexInv) (hho : s.HeapOrd)
    (hl : dictGet? s.idx_of_element key = some i)
    (hv : newValue < s.heapVal i) :
    ((s.decreaseState key newValue).sift_up i).HeapOrd := by
  obtain ⟨hi, hgd⟩ := hinv.entry_spec hl
  have hvals : ∀ k, k < s.heap.length → k ≠ i →
      (s.decreaseState key newValue).heapVal k = s.heapVal k := by
    intro k hk hkne
    unfold MinHeap.heapVal MinHeap.decreaseState
    simp only
    rw [Function.update_apply, if_neg]
    intro heq
    exact hkne (hp_nodup_getD_inj s.heap k i hinv.heapNodup hk hi (heq.trans hgd.symm))
  have hvali : (s.decreaseState key newValue).heapVal i = newValue := by
    unfold MinHeap.heapVal MinHeap.decreaseState
    simp only
    rw [hgd, Function.update_same]
  show (MinHeap.sift_upF (i + 1) (s.decreaseState key newValue) i).HeapOrd
  apply sift_upF_heapOrd (i + 1) (s.decreaseState key newValue) i (by omega)
    (show i < (s.decreaseState key newValue).heap.length from hi)
  · intro j hj hjn hne
    show (s.decreaseState key newValue).heapVal (parentIdx j) ≤
      (s.decreaseState key newValue).heapVal j
    rw [hvals j hjn hne]
    by_cases hpj : parentIdx j = i
    · rw [hpj, hvali]
      exact le_trans (le_of_lt hv) (hpj ▸ hho j hj hjn)
    · rw [hvals (parentIdx j) (lt_trans (parentIdx_lt j hj) hjn) hpj]
      exact hho j hj hjn
  · intro j hjn hpos hpj
    show (s.decreaseState key newValue).heapVal (parentIdx i) ≤
      (s.decreaseState key newValue).heapVal j
    have hij := child_gt_of_parentIdx j _ hpj hpos
    have hpi : parentIdx i < i := parentIdx_lt i hpos
    rw [hvals (parentIdx i) (lt_trans hpi hi) (by omega),
      hvals j hjn (by omega)]
    exact le_trans (hho i hpos hi) (hpj ▸ hho j hij.2 hjn)

/-! ### remove: characterization and preservation -/

theorem hp_getD_dropLast (l : List Ident) (k : Nat) (hk : k < l.length - 1) :
    l.dropLast.getD k 0 = l.getD k 0 := by
  have hk1 : k < l.dropLast.length := by
    rw [List.length_dropLast]
    exact hk
  have hk2 : k < l.length := by omega
  rw [List.getD_eq_getElem _ 0 hk1, List.getD_eq_getElem _ 0 hk2]
  exact List.getElem_dropLast l k hk1

theorem hp_dropLast_append_getD (l : List Ident) (h : l ≠ []) :
    l.dropLast ++ [l.getD (l.length - 1) 0] = l := by
  have hlen : l.length - 1 < l.length := by
    cases l with
    | nil => exact absurd rfl h
    | cons a t => simp
  rw [List.getD_eq_getElem _ 0 hlen, ← List.getLast_eq_getElem l h]
  exact List.dropLast_concat_getLast h

theorem mem_of_mem_dictDel (d : List (Ident × Nat)) (k : Ident)
    (p : Ident × Nat) (hp : p ∈ dictDel d k) : p ∈ d := by
  induction d with
  | nil => simp [dictDel] at hp
  | cons q rest ih =>
    obtain ⟨k', v'⟩ := q
    by_cases hk : k' = k
    · subst hk
      rw [dictDel_cons_self] at hp
      exact List.mem_cons_of_mem _ hp
    · rw [dictDel_cons_ne _ _ _ _ hk] at hp
      rcases List.mem_cons.mp hp with h | h
      · exact h ▸ List.mem_cons_self _ _
      · exact List.mem_cons_of_mem _ (ih h)

theorem fst_ne_of_mem_dictDel (d : List (Ident × Nat)) (k : Ident)
    (hnd : (d.map Prod.fst).Nodup) (p : Ident × Nat) (hp : p ∈ dictDel d k) :
    p.1 ≠ k := by
  intro heq
  have h1 : dictGet? (dictDel d k) p.1 = some p.2 :=
    dictGet?_eq_some_of_mem _ _ _ (keysNodup_dictDel d k hnd)
      (by obtain ⟨a, b⟩ := p; exact hp)
  rw [heq, dictGet?_dictDel_self d k hnd] at h1
  exact Option.noConfusion h1

/-- The state after remove's root/last swap. -/
def MinHeap.removeSwap (s : MinHeap) : MinHeap := s.swapAt 0 (s.heap.length - 1)

/-- The element remove returns: the displaced old root, read off the last slot
after the swap. -/
def MinHeap.removeX (s : MinHeap) : Ident :=
  s.removeSwap.heap.getD (s.removeSwap.heap.length - 1) 0

/-- The state after remove's pop and index deletion, before sift_down. -/
def MinHeap.removePop (s : MinHeap) : MinHeap :=
  ⟨s.removeSwap.heap.dropLast, dictDel s.removeSwap.idx_of_element s.removeX,
    s.removeSwap.vals⟩

theorem remove_eq (s : MinHeap) :
    s.remove = (s.removeX, s.removePop.sift_down 0) := rfl

theorem removeX_eq_root (s : MinHeap) (hne : s.heap.length ≠ 0) :
    s.removeX = s.heap.getD 0 0 := by
  unfold MinHeap.removeX MinHeap.removeSwap
  rw [swapAt_length]
  exact swapAt_getD_snd s 0 (s.heap.length - 1) (by omega)

theorem removeSwap_length (s : MinHeap) :
    s.removeSwap.heap.length = s.heap.length := swapAt_length s 0 (s.heap.length - 1)

theorem removePop_length (s : MinHeap) :
    s.removePop.heap.length = s.heap.length - 1 := by
  show s.removeSwap.heap.dropLast.length = s.heap.length - 1
  rw [List.length_dropLast, removeSwap_length]

theorem removePop_vals (s : MinHeap) : s.removePop.vals = s.vals := rfl

theorem removeSwap_split (s : MinHeap) (hne : s.heap.length ≠ 0) :
    s.removePop.heap ++ [s.removeX] = s.removeSwap.heap := by
  show s.removeSwap.heap.dropLast ++ [s.removeX] = s.removeSwap.heap
  unfold MinHeap.removeX
  apply hp_dropLast_append_getD
  intro hnil
  have hlen := removeSwap_length s
  rw [hnil] at hlen
  simp only [List.length_nil] at hlen
  exact hne hlen.symm

theorem remove_root_perm (s : MinHeap) (hne : s.heap.length ≠ 0) :
    s.heap.Perm (s.removeX :: s.removePop.heap) := by
  have h1 : s.removeSwap.heap.Perm s.heap :=
    swapAt_perm s 0 (s.heap.length - 1) (by omega) (by omega)
  have h2 := removeSwap_split s hne
  have h3 : (s.removePop.heap ++ [s.removeX]).Perm (s.removeX :: s.removePop.heap) := by
    rw [show s.removeX :: s.removePop.heap = [s.removeX] ++ s.removePop.heap from rfl]
    exact List.perm_append_comm
  have h4 : s.heap.Perm (s.removePop.heap ++ [s.removeX]) := by
    rw [h2]
    exact h1.symm
  exact h4.trans h3

theorem removeX_mem_swap (s : MinHeap) (hne : s.heap.length ≠ 0) :
    s.removeX ∈ s.removeSwap.heap := by
  rw [← removeSwap_split s hne]
  simp

theorem removeX_not_mem_pop (s : MinHeap) (hne : s.heap.length ≠ 0)
    (hinv : s.IndexInv) : s.removeX ∉ s.removePop.heap := by
  have hnd : s.removeSwap.heap.Nodup :=
    (swapAt_indexInv s 0 (s.heap.length - 1) hinv (by omega) (by omega)).heapNodup
  rw [← removeSwap_split s hne, List.nodup_append] at hnd
  intro hmem
  exact hnd.2.2 hmem (List.mem_singleton_self _)

theorem removePop_indexInv (s : MinHeap) (hne : s.heap.length ≠ 0)
    (hinv : s.IndexInv) : s.removePop.IndexInv := by
  have hswapInv : s.removeSwap.IndexInv :=
    swapAt_indexInv s 0 (s.heap.length - 1) hinv (by omega) (by omega)
  have hnotmem := removeX_not_mem_pop s hne hinv
  refine ⟨?_, ?_, ?_, ?_⟩
  · show s.removeSwap.heap.dropLast.Nodup
    exact (List.dropLast_sublist _).nodup hswapInv.heapNodup
  · exact keysNodup_dictDel _ _ hswapInv.keysNodup
  · intro p hp
    have hmem : p ∈ s.removeSwap.idx_of_element := mem_of_mem_dictDel _ _ p hp
    have hne2 : p.1 ≠ s.removeX :=
      fst_ne_of_mem_dictDel _ _ hswapInv.keysNodup p hp
    obtain ⟨hw, hgd⟩ := hswapInv.2.2.1 p hmem
    have hwlt : p.2 < s.removeSwap.heap.length - 1 := by
      rcases Nat.lt_or_ge p.2 (s.removeSwap.heap.length - 1) with h | h
      · exact h
      · exfalso
        have hp2 : p.2 = s.removeSwap.heap.length - 1 := by omega
        apply hne2
        rw [← hgd, hp2]
        rfl
    constructor
    · rw [removePop_length]
      rw [removeSwap_length] at hwlt
      exact hwlt
    · show s.removeSwap.heap.dropLast.getD p.2 0 = p.1
      rw [hp_getD_dropLast _ _ hwlt]
      exact hgd
  · intro e he
    have hmem : e ∈ s.removeSwap.heap := by
      rw [← removeSwap_split s hne]
      exact List.mem_append_left _ he
    have hne2 : e ≠ s.removeX := fun h => (h ▸ hnotmem) he
    show (dictGet? (dictDel s.removeSwap.idx_of_element s.removeX) e).isSome
    rw [dictGet?_dictDel_ne _ _ _ hne2]
    exact hswapInv.keysPresent e hmem

theorem remove_indexInv (s : MinHeap) (hne : s.heap.length ≠ 0)
    (hinv : s.IndexInv) : (s.remove).2.IndexInv := by
  rw [remove_eq]
  exact sift_down_indexInv _ 0 (removePop_indexInv s hne hinv)

theorem remove_vals (s : MinHeap) : (s.remove).2.vals = s.vals := by
  rw [remove_eq]
  show (s.removePop.sift_down 0).vals = s.vals
  rw [sift_down_vals]
  exact removePop_vals s

theorem remove_perm (s : MinHeap) (hne : s.heap.length ≠ 0) :
    s.heap.Perm ((s.remove).1 :: (s.remove).2.heap) := by
  rw [remove_eq]
  exact (remove_root_perm s hne).trans ((sift_down_perm s.removePop 0).symm.cons _)

theorem remove_length (s : MinHeap) :
    (s.remove).2.heap.length = s.heap.length - 1 := by
  rw [remove_eq]
  show (s.removePop.sift_down 0).heap.length = s.heap.length - 1
  rw [sift_down_length, removePop_length]

/-- After the swap, pop and delete, the array is a heap except possibly at
the root, so the final sift_down makes it a heap again. -/
theorem remove_heapOrd (s : MinHeap) (hne : s.heap.length ≠ 0)
    (hinv : s.IndexInv) (hho : s.HeapOrd) : (s.remove).2.HeapOrd := by
  rw [remove_eq]
  show (s.removePop.sift_down 0).HeapOrd
  apply sift_down_root_heapOrd
  intro j hj0 hpj0 hj
  rw [removePop_length] at hj
  have hj2 : 0 < j := Nat.pos_of_ne_zero hj0
  have hpj : parentIdx j < j := parentIdx_lt j hj2
  have hvals : ∀ k, k < s.heap.length - 1 → k ≠ 0 →
      s.removePop.heapVal k = s.heapVal k := by
    intro k hk hk0
    show s.removePop.vals (s.removePop.heap.getD k 0) = s.heapVal k
    have hgd : s.removePop.heap.getD k 0 = s.removeSwap.heap.getD k 0 := by
      show s.removeSwap.heap.dropLast.getD k 0 = _
      exact hp_getD_dropLast _ _ (by rw [removeSwap_length]; exact hk)
    rw [removePop_vals, hgd]
    show s.vals ((s.swapAt 0 (s.heap.length - 1)).heap.getD k 0) = s.heapVal k
    rw [swapAt_getD_other s 0 (s.heap.length - 1) k hk0 (by omega)]
    rfl
  rw [hvals j hj hj0, hvals (parentIdx j) (by omega) hpj0]
  exact hho j hj2 (by omega)

/-- On a nonempty consistent state, the checked remove succeeds and agrees
with the total shadow. -/
theorem removeE_eq (s : MinHeap) (hne : s.heap.length ≠ 0) (hinv : s.IndexInv) :
    s.removeE = Except.ok (s.remove) := by
  have hswapInv : s.removeSwap.IndexInv :=
    swapAt_indexInv s 0 (s.heap.length - 1) hinv (by omega) (by omega)
  simp only [MinHeap.removeE, if_neg hne,
    swapAtE_eq s 0 (s.heap.length - 1) (by omega) (by omega) hinv.keysPresent]
  have hx : ((dictGet? (s.swapAt 0 (s.heap.length - 1)).idx_of_element
      ((s.swapAt 0 (s.heap.length - 1)).heap.getD
        ((s.swapAt 0 (s.heap.length - 1)).heap.length - 1) 0)).isSome) :=
    hswapInv.keysPresent _ (removeX_mem_swap s hne)
  rw [if_pos hx]
  show (match s.removePop.sift_downE 0 with
    | Except.error e => Except.error e
    | Except.ok s3 => Except.ok (s.removeX, s3)) = Except.ok s.remove
  rw [sift_downE_eq s.removePop 0 (removePop_indexInv s hne hinv).keysPresent]
  rfl

/-! ### build_heap: index consistency -/

theorem buildDictFrom_lookup (ids : List Ident) : ∀ (k : Nat) (d : List (Ident × Nat))
    (e : Ident), ids.Nodup →
    dictGet? (buildDictFrom ids k d) e =
      if e ∈ ids then some (k + ids.indexOf e) else dictGet? d e := by
  induction ids with
  | nil =>
    intro k d e _
    simp [buildDictFrom]
  | cons a rest ih =>
    intro k d e hnd
    rw [List.nodup_cons] at hnd
    show dictGet? (buildDictFrom rest (k + 1) (dictSet d a k)) e = _
    rw [ih (k + 1) (dictSet d a k) e hnd.2]
    by_cases he : e ∈ rest
    · rw [if_pos he, if_pos (List.mem_cons_of_mem a he)]
      have hea : e ≠ a := fun h => hnd.1 (h ▸ he)
      rw [List.indexOf_cons_ne rest (fun h => hea h.symm)]
      congr 1
      omega
    · rw [if_neg he]
      by_cases hea : e = a
      · subst hea
        rw [if_pos (List.mem_cons_self e rest), dictGet?_dictSet_self,
          List.indexOf_cons_self]
        simp
      · rw [if_neg (by simp [hea, he]), dictGet?_dictSet_ne d a k e hea]

theorem buildDictFrom_keysNodup (ids : List Ident) : ∀ (k : Nat)
    (d : List (Ident × Nat)), (d.map Prod.fst).Nodup →
    ((buildDictFrom ids k d).map Prod.fst).Nodup := by
  induction ids with
  | nil => intro k d h; exact h
  | cons a rest ih =>
    intro k d h
    exact ih (k + 1) _ (keysNodup_dictSet d a k h)

theorem buildDictFrom_isSome (ids : List Ident) : ∀ (k : Nat)
    (d : List (Ident × Nat)) (e : Ident),
    e ∈ ids ∨ (dictGet? d e).isSome →
    (dictGet? (buildDictFrom ids k d) e).isSome := by
  induction ids with
  | nil =>
    intro k d e h
    rcases h with h | h
    · simp at h
    · exact h
  | cons a rest ih =>
    intro k d e h
    show (dictGet? (buildDictFrom rest (k + 1) (dictSet d a k)) e).isSome
    rcases h with h | h
    · rcases List.mem_cons.mp h with rfl | h2
      · exact ih _ _ _ (Or.inr (by rw [dictGet?_dictSet_self]; rfl))
      · exact ih _ _ _ (Or.inl h2)
    · exact ih _ _ _ (Or.inr (dictGet?_isSome_dictSet d a k e h))

/-- The initial state of build_heap, before heapify. -/
def MinHeap.buildState (array : List Ident) (vals : Ident → Int) : MinHeap :=
  ⟨array, buildDictFrom array 0 [], vals⟩

theorem buildState_keysPresent (array : List Ident) (vals : Ident → Int) :
    (MinHeap.buildState array vals).KeysPresent := by
  intro e he
  exact buildDictFrom_isSome array 0 [] e (Or.inl he)

theorem buildState_indexInv (array : List Ident) (vals : Ident → Int)
    (hnd : array.Nodup) : (MinHeap.buildState array vals).IndexInv := by
  refine ⟨hnd, buildDictFrom_keysNodup array 0 [] (by simp), ?_,
    buildState_keysPresent array vals⟩
  intro p hp
  obtain ⟨x, w⟩ := p
  have hl : dictGet? (buildDictFrom array 0 []) x = some w :=
    dictGet?_eq_some_of_mem _ _ _ (buildDictFrom_keysNodup array 0 [] (by simp)) hp
  rw [buildDictFrom_lookup array 0 [] x hnd] at hl
  by_cases hm : x ∈ array
  · rw [if_pos hm] at hl
    have hidx : w = array.indexOf x := by
      simp only [Nat.zero_add, Option.some.injEq] at hl
      exact hl.symm
    have hlt : array.indexOf x < array.length := List.indexOf_lt_length.mpr hm
    subst hidx
    refine ⟨hlt, ?_⟩
    show array.getD (array.indexOf x) 0 = x
    rw [List.getD_eq_getElem _ 0 hlt]
    exact List.getElem_indexOf hlt
  · rw [if_neg hm] at hl
    exact absurd hl (by simp [dictGet?])

theorem build_heap_cases (array : List Ident) (vals : Ident → Int) :
    (2 ≤ array.length ∧
      MinHeap.build_heap array vals =
        (MinHeap.buildState array vals).build_heapAux ((array.length - 2) / 2)) ∨
    (array.length < 2 ∧
      MinHeap.build_heap array vals = MinHeap.buildState array vals) := by
  simp only [MinHeap.build_heap]
  by_cases h : 0 ≤ MinHeap.get_parent_idx ((array.length : Int) - 1)
  · have hn : 2 ≤ array.length := by
      by_contra hlt
      exact absurd h (not_le.mpr (startFrom_neg _ (by omega)))
    rw [if_pos h, startFrom_spec _ hn, Int.toNat_ofNat]
    exact Or.inl ⟨hn, rfl⟩
  · have hn : array.length < 2 := by
      by_contra hge
      rw [startFrom_spec _ (by omega)] at h
      exact h (Int.ofNat_nonneg _)
    rw [if_neg h]
    exact Or.inr ⟨hn, rfl⟩

theorem build_heap_indexInv (array : List Ident) (vals : Ident → Int)
    (hnd : array.Nodup) : (MinHeap.build_heap array vals).IndexInv := by
  rcases build_heap_cases array vals with ⟨_, heq⟩ | ⟨_, heq⟩
  · rw [heq]
    exact build_heapAux_indexInv _ _ (buildState_indexInv array vals hnd)
  · rw [heq]
    exact buildState_indexInv array vals hnd

theorem build_heap_perm (array : List Ident) (vals : Ident → Int) :
    (MinHeap.build_heap array vals).heap.Perm array := by
  rcases build_heap_cases array vals with ⟨_, heq⟩ | ⟨_, heq⟩
  · rw [heq]
    exact build_heapAux_perm _ _
  · rw [heq]
    exact List.Perm.refl _

theorem build_heap_vals (array : List Ident) (vals : Ident → Int) :
    (MinHeap.build_heap array vals).vals = vals := by
  rcases build_heap_cases array vals with ⟨_, heq⟩ | ⟨_, heq⟩
  · rw [heq]
    exact build_heapAux_vals _ _
  · rw [heq]
    rfl

theorem build_heap_length (array : List Ident) (vals : Ident → Int) :
    (MinHeap.build_heap array vals).heap.length = array.length :=
  (build_heap_perm array vals).length_eq

/-- build never raises: the enumeration pass indexes every array element, so
all dictionary reads during heapify find their key. -/
theorem build_heapE_eq (array : List Ident) (vals : Ident → Int) :
    MinHeap.build_heapE array vals = Except.ok (MinHeap.build_heap array vals) := by
  simp only [MinHeap.build_heapE, MinHeap.build_heap]
  by_cases h : 0 ≤ MinHeap.get_parent_idx ((array.length : Int) - 1)
  · rw [if_pos h, if_pos h]
    exact build_heapAuxE_eq _ _ (buildState_keysPresent array vals)
  · rw [if_neg h, if_neg h]

/-! ### Reachable states and the master invariant -/

theorem insertE_ok_inv (s : MinHeap) (value : Ident) (v : Int) (s' : MinHeap)
    (h : s.insertE value v = Except.ok s') (hkp : s.KeysPresent) :
    s' = s.insert value v := by
  rw [insertE_eq s value v hkp] at h
  exact (Except.ok.inj h).symm

theorem removeE_ok_inv (s : MinHeap) (x : Ident) (s' : MinHeap)
    (h : s.removeE = Except.ok (x, s')) (hinv : s.IndexInv) :
    s.heap.length ≠ 0 ∧ x = (s.remove).1 ∧ s' = (s.remove).2 := by
  by_cases hne : s.heap.length = 0
  · unfold MinHeap.removeE at h
    rw [if_pos hne] at h
    exact absurd h (by simp)
  · rw [removeE_eq s hne hinv] at h
    have h2 := Except.ok.inj h
    exact ⟨hne, congrArg Prod.fst h2.symm, congrArg Prod.snd h2.symm⟩

theorem decrease_key_ok_inv (s : MinHeap) (key : Ident) (newValue : Int)
    (s' : MinHeap) (h : s.decrease_key key newValue = Except.ok s')
    (hkp : s.KeysPresent) :
    ∃ i, dictGet? s.idx_of_element key = some i ∧ i < s.heap.length ∧
      newValue < s.heapVal i ∧ s' = (s.decreaseState key newValue).sift_up i := by
  cases hl : dictGet? s.idx_of_element key with
  | none =>
    unfold MinHeap.decrease_key at h
    rw [hl] at h
    exact absurd h (by simp)
  | some i =>
    by_cases hi : i < s.heap.length
    · by_cases hv : newValue < s.heapVal i
      · rw [decrease_key_ok_char s key newValue i hl hi hv hkp] at h
        exact ⟨i, rfl, hi, hv, (Except.ok.inj h).symm⟩

      · unfold MinHeap.decrease_key at h
        rw [hl] at h
        simp only [if_pos hi, if_neg hv] at h
        exact absurd h (by simp)
    · unfold MinHeap.decrease_key at h
      rw [hl] at h
      simp only [if_neg hi] at h
      exact absurd h (by simp)

/-- The states reachable through the public API: build on a duplicate-free
sequence, then any sequence of successful insert (of a not-yet-present
element), remove and decrease_key calls. -/
inductive Reachable : MinHeap → Prop where
  | build (ids : List Ident) (vals : Ident → Int) (hnd : ids.Nodup) (s : MinHeap)
      (h : MinHeap.build_heapE ids vals = Except.ok s) : Reachable s
  | insert (s : MinHeap) (value : Ident) (v : Int) (hs : Reachable s)
      (hnotin : value ∉ s.heap) (s' : MinHeap)
      (h : s.insertE value v = Except.ok s') : Reachable s'
  | removeMin (s : MinHeap) (hs : Reachable s) (x : Ident) (s' : MinHeap)
      (h : s.removeE = Except.ok (x, s')) : Reachable s'
  | decreaseKey (s : MinHeap) (hs : Reachable s) (key : Ident) (newValue : Int)
      (s' : MinHeap) (h : s.decrease_key key newValue = Except.ok s') : Reachable s'

/-- Master invariant: every reachable state is index-consistent and
heap-ordered. -/
theorem reachable_inv (s : MinHeap) (h : Reachable s) : s.IndexInv ∧ s.HeapOrd := by
  induction h with
  | build ids vals hnd s h =>
    rw [build_heapE_eq] at h
    injection h with h2
    subst h2
    exact ⟨build_heap_indexInv ids vals hnd, build_heap_heapOrd ids vals⟩
  | insert s value v hs hnotin s' h ih =>
    have heq := insertE_ok_inv s value v s' h ih.1.keysPresent
    subst heq
    exact ⟨insert_indexInv s value v ih.1 hnotin,
      insert_heapOrd s value v ih.2 hnotin⟩
  | removeMin s hs x s' h ih =>
    obtain ⟨hne, _, heq⟩ := removeE_ok_inv s x s' h ih.1
    subst heq
    exact ⟨remove_indexInv s hne ih.1, remove_heapOrd s hne ih.1 ih.2⟩
  | decreaseKey s hs key newValue s' h ih =>
    obtain ⟨i, hl, hi, hv, heq⟩ := decrease_key_ok_inv s key newValue s' h
      ih.1.keysPresent
    subst heq
    exact ⟨sift_up_indexInv _ i hi (decreaseState_indexInv s key newValue ih.1),
      decrease_heapOrd s key newValue i ih.1 ih.2 hl hv⟩

theorem peek_eq_root (s : MinHeap) (hne : s.heap.length ≠ 0) :
    s.peek = Except.ok (s.heap.getD 0 0) := by
  cases hl : s.heap with
  | nil =>
    rw [hl] at hne
    simp at hne
  | cons a t =>
    unfold MinHeap.peek
    rw [hl]
    rfl

/-! ### Repeated remove: sorted extraction -/

theorem drainAllF_succ (fuel : Nat) (s : MinHeap) :
    MinHeap.drainAllF (fuel + 1) s =
      match s.removeE with
      | Except.error _ => ([], s)
      | Except.ok (x, s') =>
        (x :: (MinHeap.drainAllF fuel s').1, (MinHeap.drainAllF fuel s').2) := rfl

theorem removeE_empty (s : MinHeap) (hne : s.heap.length = 0) :
    s.removeE = Except.error PyErr.indexError := by
  unfold MinHeap.removeE
  rw [if_pos hne]

/-- Draining a consistent heap-ordered state returns exactly its elements,
in non-decreasing priority order, and ends on the empty heap. -/
theorem drainAllF_spec (fuel : Nat) : ∀ (s : MinHeap),
    s.heap.length < fuel → s.IndexInv → s.HeapOrd →
    (MinHeap.drainAllF fuel s).1.Perm s.heap ∧
    List.Sorted (· ≤ ·) ((MinHeap.drainAllF fuel s).1.map s.vals) ∧
    (MinHeap.drainAllF fuel s).2.heap = [] := by
  induction fuel with
  | zero =>
    intro s hfuel
    omega
  | succ fuel ih =>
    intro s hfuel hinv hho
    by_cases hne : s.heap.length = 0
    · rw [drainAllF_succ, removeE_empty s hne]
      exact ⟨by rw [List.length_eq_zero.mp hne], List.sorted_nil,
        List.length_eq_zero.mp hne⟩
    · have hstep : MinHeap.drainAllF (fuel + 1) s =
          ((s.remove).1 :: (MinHeap.drainAllF fuel (s.remove).2).1,
            (MinHeap.drainAllF fuel (s.remove).2).2) := by
        rw [drainAllF_succ, removeE_eq s hne hinv, remove_eq]
      have hlen : (s.remove).2.heap.length < fuel := by
        rw [remove_length]
        omega
      obtain ⟨hperm, hsorted, hempty⟩ := ih (s.remove).2 hlen
        (remove_indexInv s hne hinv) (remove_heapOrd s hne hinv hho)
      rw [hstep]
      refine ⟨?_, ?_, hempty⟩
      · exact ((hperm.cons (s.remove).1).trans (remove_perm s hne).symm)
      · rw [List.map_cons, List.sorted_cons]
        constructor
        · intro b hb
          rw [List.mem_map] at hb
          obtain ⟨e, he, rfl⟩ := hb
          have he2 : e ∈ (s.remove).2.heap := hperm.mem_iff.mp he
          have he3 : e ∈ s.heap := by
            rw [(remove_perm s hne).mem_iff]
            exact List.mem_cons_of_mem _ he2
          obtain ⟨k, hk, hke⟩ := List.getElem_of_mem he3
          have hroot := heapOrd_root_le s hho k hk
          have hx : (s.remove).1 = s.heap.getD 0 0 := by
            rw [remove_eq]
            exact removeX_eq_root s hne
          unfold MinHeap.heapVal at hroot
          rw [List.getD_eq_getElem _ 0 hk, hke] at hroot
          rw [hx]
          exact hroot
        · have hvals : (s.remove).2.vals = s.vals := remove_vals s
          rw [← hvals]
          exact hsorted

theorem drainAll_spec (s : MinHeap) (hinv : s.IndexInv) (hho : s.HeapOrd) :
    (s.drainAll).1.Perm s.heap ∧
    List.Sorted (· ≤ ·) ((s.drainAll).1.map s.vals) ∧
    (s.drainAll).2.heap = [] :=
  drainAllF_spec (s.heap.length + 1) s (by omega) hinv hho

/-! ### sift_up never displaces the root on ties -/

/-- If the sifted value is not strictly below the root's value, the element
at slot 0 stays put through the whole sift_up. -/
theorem sift_upF_keeps_root (fuel : Nat) : ∀ (s : MinHeap) (idx : Nat) (m : Ident),
    idx < s.heap.length → s.heap.getD 0 0 = m →
    ¬ (s.heapVal idx < s.vals m) →
    (MinHeap.sift_upF fuel s idx).heap.getD 0 0 = m := by
  induction fuel with
  | zero =>
    intro s idx m _ h _
    rwa [sift_upF_zero]
  | succ fuel ih =>
    intro s idx m hidx hroot hnl
    cases Nat.eq_zero_or_pos idx with
    | inl h0 =>
      subst h0
      rwa [sift_upF_succ_root]
    | inr hpos =>
      rw [sift_upF_succ_pos fuel s idx hpos]
      by_cases hc : s.heapVal idx < s.heapVal (parentIdx idx)
      · rw [if_pos hc]
        have hplt := parentIdx_lt idx hpos
        have hpn : parentIdx idx < s.heap.length := lt_trans hplt hidx
        by_cases hp0 : parentIdx idx = 0
        · exfalso
          apply hnl
          have hv0 : s.heapVal 0 = s.vals m := by
            unfold MinHeap.heapVal
            rw [hroot]
          rw [hp0, hv0] at hc
          exact hc
        · have hlen : (s.swapAt (parentIdx idx) idx).heap.length = s.heap.length :=
            swapAt_length s _ idx
          apply ih _ _ m (by rw [hlen]; exact hpn)
          · rw [swapAt_getD_other s (parentIdx idx) idx 0
              (fun h => hp0 h.symm) (by omega)]
            exact hroot
          · rw [swapAt_heapVal_fst s _ idx hpn]
            show ¬ s.heapVal idx < (s.swapAt (parentIdx idx) idx).vals m
            rw [swapAt_vals]
            exact hnl
      · rw [if_neg hc]
        exact hroot

/-! ### Decidability of the invariants (for concrete witnesses) -/

instance (s : MinHeap) : Decidable s.KeysPresent := by
  unfold MinHeap.KeysPresent
  infer_instance

instance (s : MinHeap) : Decidable s.IndexInv := by
  unfold MinHeap.IndexInv MinHeap.KeysPresent
  exact instDecidableAnd

/-! ### The demonstration scenario of the source -/

/-- The demo nodes of the source, R, B, A, X, E, as identities 0..4 carrying
their initial val fields -1, 6, 3, 1, 4. -/
def demoVals : Ident → Int := fun i =>
  if i = 0 then -1
  else if i = 1 then 6
  else if i = 2 then 3
  else if i = 3 then 1
  else if i = 4 then 4
  else 0

/-- MinHeap([r, b, a, x, e]) of the source demo. -/
def demoHeap : MinHeap := MinHeap.build_heap [0, 1, 2, 3, 4] demoVals

/-- The state after decrease_key(b, -17) in the source demo. -/
def demoHeap2 : MinHeap :=
  ⟨[1, 0, 2, 3, 4], [(0, 1), (1, 0), (2, 2), (3, 3), (4, 4)],
    Function.update demoHeap.vals 1 (-17)⟩

/-! ### The claims -/

/-- C1: for every reachable heap state (a build on a duplicate-free sequence
followed by any succession of insert, remove-min and decrease-key calls that
satisfy their preconditions), the min-heap property holds: every non-root
slot i has priority(array[i]) >= priority(array[parent(i)]) with
parent(i) = (i-1)/2 in integer division. -/
theorem C1_heap_order_invariant (s : MinHeap) (h : Reachable s) :
    ∀ i, 0 < i → i < s.heap.length → s.heapVal (parentIdx i) ≤ s.heapVal i := by
  intro i hi hil
  exact (reachable_inv s h).2 i hi hil

theorem C1_heap_order_invariant_witness :
    demoHeap.heapVal (parentIdx 1) ≤ demoHeap.heapVal 1 :=
  C1_heap_order_invariant demoHeap
    (Reachable.build [0, 1, 2, 3, 4] demoVals (by decide) demoHeap rfl)
    1 (by decide) (by decide)

/-- C2: on every reachable heap state, the position index and the array are
mutually consistent: every element of the heap has an index entry pointing
back at its slot, and the index has no entry for an absent element. -/
theorem C2_index_consistency (s : MinHeap) (h : Reachable s) :
    (∀ e ∈ s.heap, ∃ i, dictGet? s.idx_of_element e = some i ∧
      i < s.heap.length ∧ s.heap.getD i 0 = e) ∧
    (∀ e, e ∉ s.heap → dictGet? s.idx_of_element e = none) := by
  obtain ⟨hinv, _⟩ := reachable_inv s h
  constructor
  · intro e he
    have hs := hinv.keysPresent e he
    cases hl : dictGet? s.idx_of_element e with
    | none =>
      rw [hl] at hs
      simp at hs
    | some i =>
      obtain ⟨hi, hgd⟩ := hinv.entry_spec hl
      exact ⟨i, rfl, hi, hgd⟩
  · intro e hne
    cases hl : dictGet? s.idx_of_element e with
    | none => rfl
    | some i =>
      obtain ⟨hi, hgd⟩ := hinv.entry_spec hl
      exact absurd (hgd ▸ hp_getD_mem s.heap i hi) hne

theorem C2_index_consistency_witness :
    dictGet? demoHeap.idx_of_element 9 = none :=
  (C2_index_consistency demoHeap
    (Reachable.build [0, 1, 2, 3, 4] demoVals (by decide) demoHeap rfl)).2
    9 (by decide)

/-- C3 as stated is false on the code: building from a sequence that repeats
an element breaks the index (the enumeration keeps only the last slot of the
repeated element), and extraction then dies with KeyError before the heap is
empty.  Building [0, 0]: the first remove-min succeeds, but the second
raises KeyError while the heap still holds one element, so repeated
remove-min neither returns all elements nor empties the heap. -/
theorem C3_sorted_extraction_counterexample :
    MinHeap.build_heapE [0, 0] (fun _ => 0) = Except.ok
      ⟨[0, 0], [(0, 1)], fun _ => 0⟩ ∧
    MinHeap.removeE ⟨[0, 0], [(0, 1)], fun _ => 0⟩ =
      Except.ok (0, ⟨[0], [], fun _ => 0⟩) ∧
    MinHeap.is_empty ⟨[0], [], fun _ => 0⟩ = false ∧
    MinHeap.removeE ⟨[0], [], fun _ => 0⟩ = Except.error PyErr.keyError ∧
    (MinHeap.drainAll ⟨[0, 0], [(0, 1)], fun _ => 0⟩).1.length = 1 ∧
    (MinHeap.drainAll ⟨[0, 0], [(0, 1)], fun _ => 0⟩).2.is_empty = false :=
  ⟨rfl, rfl, rfl, rfl, rfl, rfl⟩

/-- C3 (amended): for every heap built from a duplicate-free finite sequence
of elements with totally ordered priorities, repeatedly calling remove-min
until the heap is empty returns all the elements in non-decreasing priority
order, and the heap is empty exactly after as many calls as there were
elements. -/
theorem C3_sorted_extraction (ids : List Ident) (vals : Ident → Int)
    (hnd : ids.Nodup) :
    ((MinHeap.build_heap ids vals).drainAll).1.Perm ids ∧
    List.Sorted (· ≤ ·) (((MinHeap.build_heap ids vals).drainAll).1.map vals) ∧
    ((MinHeap.build_heap ids vals).drainAll).1.length = ids.length ∧
    ((MinHeap.build_heap ids vals).drainAll).2.heap = [] := by
  obtain ⟨hperm, hsorted, hempty⟩ := drainAll_spec (MinHeap.build_heap ids vals)
    (build_heap_indexInv ids vals hnd) (build_heap_heapOrd ids vals)
  have hperm2 := hperm.trans (build_heap_perm ids vals)
  refine ⟨hperm2, ?_, hperm2.length_eq, hempty⟩
  rwa [build_heap_vals ids vals] at hsorted

theorem C3_sorted_extraction_witness :
    ((MinHeap.build_heap [0, 1, 2, 3, 4] demoVals).drainAll).1.Perm
      [0, 1, 2, 3, 4] ∧
    List.Sorted (· ≤ ·)
      (((MinHeap.build_heap [0, 1, 2, 3, 4] demoVals).drainAll).1.map demoVals) ∧
    ((MinHeap.build_heap [0, 1, 2, 3, 4] demoVals).drainAll).1.length =
      ([0, 1, 2, 3, 4] : List Ident).length ∧
    ((MinHeap.build_heap [0, 1, 2, 3, 4] demoVals).drainAll).2.heap = [] :=
  C3_sorted_extraction [0, 1, 2, 3, 4] demoVals (by decide)

/-- C4: building from elements R,B,A,X,E (identities 0..4) with priorities
-1, 6, 3, 1, 4 makes peek return R; after decrease-key(B, -17), peek returns
B; and repeated remove-min then yields priorities -17, -1, 1, 3, 4. -/
theorem C4_concrete_scenario :
    demoHeap.peek = Except.ok 0 ∧ demoVals 0 = -1 ∧
    (demoHeap.decrease_key 1 (-17)).map
      (fun s' => (s'.peek, (s'.drainAll).1.map s'.vals)) =
      Except.ok (Except.ok 1, [-17, -1, 1, 3, 4]) :=
  ⟨rfl, rfl, rfl⟩

/-- C5: on a heap with zero elements, peek and remove-min both fail (with
the IndexError that Python raises for the empty-list access, the failure the
spec names EmptyHeapError); the error is raised before any mutation, so the
state is untouched. -/
theorem C5_empty_heap_errors (s : MinHeap) (h : s.heap = []) :
    s.peek = Except.error PyErr.indexError ∧
    s.removeE = Except.error PyErr.indexError := by
  constructor
  · unfold MinHeap.peek
    rw [h]
  · exact removeE_empty s (by rw [h]; rfl)

theorem C5_empty_heap_errors_witness :
    (MinHeap.build_heap [] demoVals).peek = Except.error PyErr.indexError ∧
    (MinHeap.build_heap [] demoVals).removeE = Except.error PyErr.indexError :=
  C5_empty_heap_errors (MinHeap.build_heap [] demoVals) rfl

/-- C6: decrease-key with a new priority not strictly below the element's
current priority fails with the failed assert (the AssertionError the spec
names InvalidPriorityError); the assert is evaluated before any mutation, so
the heap is unchanged. -/
theorem C6_decrease_key_not_smaller (s : MinHeap) (e : Ident) (v : Int)
    (hinv : s.IndexInv) (he : e ∈ s.heap) (hv : s.vals e ≤ v) :
    s.decrease_key e v = Except.error PyErr.assertionError := by
  have hs := hinv.keysPresent e he
  cases hl : dictGet? s.idx_of_element e with
  | none =>
    rw [hl] at hs
    simp at hs
  | some i =>
    obtain ⟨hi, hgd⟩ := hinv.entry_spec hl
    simp only [MinHeap.decrease_key, hl]
    rw [if_pos hi, if_neg]
    show ¬ v < s.heapVal i
    unfold MinHeap.heapVal
    rw [hgd]
    exact not_lt.mpr hv

theorem C6_decrease_key_not_smaller_witness :
    demoHeap.decrease_key 4 100 = Except.error PyErr.assertionError :=
  C6_decrease_key_not_smaller demoHeap 4 100 (by decide) (by decide) (by decide)

/-- C7: decrease-key on an element with no index entry (never inserted, or
already removed) fails with the KeyError of the index lookup (the failure
the spec names ElementNotFoundError), before any mutation. -/
theorem C7_decrease_key_missing (s : MinHeap) (e : Ident) (v : Int)
    (h : dictGet? s.idx_of_element e = none) :
    s.decrease_key e v = Except.error PyErr.keyError := by
  simp only [MinHeap.decrease_key, h]

theorem C7_decrease_key_missing_witness :
    demoHeap.decrease_key 9 0 = Except.error PyErr.keyError :=
  C7_decrease_key_missing demoHeap 9 0 (by decide)

/-- C8: a successful decrease-key changes only the given element's stored
priority (which afterwards equals the new priority): the array keeps the
same length and the same set of elements, and every other element's priority
is unchanged. -/
theorem C8_decrease_key_frame (s : MinHeap) (key : Ident) (v : Int)
    (s' : MinHeap) (hinv : s.IndexInv)
    (h : s.decrease_key key v = Except.ok s') :
    s'.heap.Perm s.heap ∧ s'.heap.length = s.heap.length ∧
    s'.vals key = v ∧ (∀ e, e ≠ key → s'.vals e = s.vals e) := by
  obtain ⟨i, hl, hi, hv, heq⟩ := decrease_key_ok_inv s key v s' h hinv.keysPresent
  subst heq
  have hperm : (((s.decreaseState key v).sift_up i)).heap.Perm s.heap :=
    sift_up_perm (s.decreaseState key v) i hi
  have hvals : (((s.decreaseState key v).sift_up i)).vals =
      Function.update s.vals key v := by
    rw [sift_up_vals]
    rfl
  refine ⟨hperm, hperm.length_eq, ?_, ?_⟩
  · rw [hvals, Function.update_same]
  · intro e hne
    rw [hvals, Function.update_noteq hne]

theorem C8_decrease_key_frame_witness :
    demoHeap2.heap.Perm demoHeap.heap ∧
    demoHeap2.heap.length = demoHeap.heap.length ∧
    demoHeap2.vals 1 = -17 ∧ demoHeap2.vals 0 = demoHeap.vals 0 :=
  have hc := C8_decrease_key_frame demoHeap 1 (-17) demoHeap2 (by decide)
    (show demoHeap.decrease_key 1 (-17) = Except.ok demoHeap2 from rfl)
  ⟨hc.1, hc.2.1, hc.2.2.1, hc.2.2.2 0 (by decide)⟩

/-- C9: sift-up and sift-down swap only on strictly smaller priority, never
on equality: inserting an element whose priority equals the current minimum
leaves peek returning the previously present minimum; and a sift step whose
comparisons all tie performs no swap at all. -/
theorem C9_no_swap_on_ties :
    (∀ (s : MinHeap) (m value : Ident), s.peek = Except.ok m → value ∉ s.heap →
      (s.insert value (s.vals m)).peek = Except.ok m) ∧
    (∀ (s : MinHeap) (idx : Nat),
      s.heapVal (MinHeap.get_left_child_idx idx) = s.heapVal idx →
      s.heapVal (MinHeap.get_right_child_idx idx) = s.heapVal idx →
      s.sift_down idx = s) ∧
    (∀ (s : MinHeap) (idx : Nat),
      s.heapVal idx = s.heapVal (parentIdx idx) → s.sift_up idx = s) := by
  refine ⟨?_, ?_, ?_⟩
  · intro s m value hpeek hnotin
    have hne : s.heap ≠ [] := by
      intro h
      unfold MinHeap.peek at hpeek
      rw [h] at hpeek
      exact absurd hpeek (by simp)
    have hroot : s.heap.getD 0 0 = m := by
      cases hl : s.heap with
      | nil => exact absurd hl hne
      | cons a t =>
        unfold MinHeap.peek at hpeek
        rw [hl] at hpeek
        have := Except.ok.inj hpeek
        rw [List.getD_cons_zero]
        exact this
    have hlen0 : s.heap.length ≠ 0 := fun h =>
      hne (List.length_eq_zero.mp h)
    have hmem : m ∈ s.heap := hroot ▸ hp_getD_mem s.heap 0 (by omega)
    rw [insert_eq]
    have hslen : (s.insertState value (s.vals m)).heap.length = s.heap.length + 1 :=
      insertState_length s value (s.vals m)
    have hidx : (s.insertState value (s.vals m)).heap.length - 1 = s.heap.length := by
      omega
    rw [hidx]
    have hroot2 : (MinHeap.sift_upF (s.heap.length + 1)
        (s.insertState value (s.vals m)) s.heap.length).heap.getD 0 0 = m := by
      apply sift_upF_keeps_root
      · rw [hslen]
        omega
      · show (s.heap ++ [value]).getD 0 0 = m
        rw [List.getD_append _ _ _ _ (by omega)]
        exact hroot
      · rw [insertState_heapVal_new]
        show ¬ s.vals m < Function.update s.vals value (s.vals m) m
        rw [Function.update_noteq
          (show m ≠ value from fun h => hnotin (by rw [← h]; exact hmem))]
        exact lt_irrefl _
    have hlen2 : (MinHeap.sift_upF (s.heap.length + 1)
        (s.insertState value (s.vals m)) s.heap.length).heap.length =
        s.heap.length + 1 := by
      rw [sift_upF_length _ _ _ (by rw [hslen]; omega), hslen]
    rw [show (s.insertState value (s.vals m)).sift_up s.heap.length =
      MinHeap.sift_upF (s.heap.length + 1)
        (s.insertState value (s.vals m)) s.heap.length from rfl]
    rw [peek_eq_root _ (by omega), hroot2]
  · intro s idx hl hr
    have hsm : s.sdSmallest idx = idx := by
      simp only [MinHeap.sdSmallest]
      have hg1 : ¬ (MinHeap.get_left_child_idx idx < s.heap.length ∧
          s.heapVal (MinHeap.get_left_child_idx idx) < s.heapVal idx) :=
        fun hc => absurd (hl ▸ hc.2) (lt_irrefl _)
      rw [if_neg hg1]
      rw [if_neg (fun hc => absurd (hr ▸ hc.2) (lt_irrefl _))]
    show MinHeap.sift_downF (s.heap.length + 1) s idx = s
    rw [sift_downF_succ, if_neg (fun hc => hc hsm)]
  · intro s idx heq
    cases Nat.eq_zero_or_pos idx with
    | inl h0 =>
      subst h0
      exact sift_upF_succ_root 0 s
    | inr hpos =>
      show MinHeap.sift_upF (idx + 1) s idx = s
      rw [sift_upF_succ_pos _ s idx hpos,
        if_neg (fun hc => absurd (heq ▸ hc) (lt_irrefl _))]

theorem C9_no_swap_on_ties_witness :
    (demoHeap.insert 9 (demoHeap.vals 0)).peek = Except.ok 0 ∧
    demoHeap.sift_down 5 = demoHeap ∧
    demoHeap.sift_up 0 = demoHeap :=
  ⟨C9_no_swap_on_ties.1 demoHeap 0 9 rfl (by decide),
    C9_no_swap_on_ties.2.1 demoHeap 5 (by decide) (by decide),
    C9_no_swap_on_ties.2.2 demoHeap 0 rfl⟩

/-- C10: building from the empty sequence succeeds without error and yields
a heap with is-empty true, an array of length 0, and an empty index. -/
theorem C10_build_empty (vals : Ident → Int) :
    MinHeap.build_heapE [] vals = Except.ok (MinHeap.build_heap [] vals) ∧
    (MinHeap.build_heap [] vals).heap = [] ∧
    (MinHeap.build_heap [] vals).idx_of_element = [] ∧
    (MinHeap.build_heap [] vals).is_empty = true :=
  ⟨build_heapE_eq [] vals, rfl, rfl, rfl⟩
